import Mathlib

/-!
# Verification of the sql-diff canonicalization engine

A shallow embedding of the sql-diff repository's SQL normalization and
comparison pipeline, together with proofs about its claimed properties.

The embedding mirrors:
* `src/utils/aliasResolver.js` — `normalizeTableName`, `buildAliasMap`,
  `resolveExpressionAliasesInPlace`, `resolveAstAliases`;
* `src/utils/elementSorter.js` — `generateSortKey`, `flattenConditions`,
  `rebuildConditionTree`, `sortWhereConditions`, `sortSelectColumns`,
  `sortJoinClauses`, `sortGroupBy`;
* `src/utils/sqlNormalizer.js` — `normalizeQuery`, `compareQueries`
  (the external parser `node-sql-parser` and the text renderer are taken
  as abstract function parameters, since they are outside the repository).

JavaScript AST objects are modelled as a closed mutual inductive family
matching the node shapes the code dispatches on.  In-place mutation in the
source is modelled by returning the updated value; `JSON.parse(JSON.stringify(x))`
cloning is the identity on values.  JavaScript string truthiness (empty
string is falsy) is modelled by `truthyS`.  The stable `Array.prototype.sort`
(stable per ES2019) with a `localeCompare` comparator over ASCII sort keys is
modelled as the stable `List.insertionSort` over lexicographic string order.
-/

namespace SqlDiff

/-- JavaScript truthiness of an optional string value:
`null`/`undefined` and the empty string are falsy. -/
def truthyS (s : Option String) : Bool :=
  match s with
  | none => false
  | some v => !v.data.isEmpty

/-- ASCII lowercasing of one character (JavaScript `toLowerCase` restricted
to the ASCII range, which is all the engine's keys and names use). -/
def charToLower (c : Char) : Char :=
  if 65 ≤ c.toNat && c.toNat ≤ 90 then Char.ofNat (c.toNat + 32) else c

/-- ASCII uppercasing of one character (JavaScript `toUpperCase`). -/
def charToUpper (c : Char) : Char :=
  if 97 ≤ c.toNat && c.toNat ≤ 122 then Char.ofNat (c.toNat - 32) else c

/-- JavaScript `s.toLowerCase()` (ASCII). -/
def jsToLower (s : String) : String := ⟨s.data.map charToLower⟩

/-- JavaScript `s.toUpperCase()` (ASCII). -/
def jsToUpper (s : String) : String := ⟨s.data.map charToUpper⟩

/-- JavaScript `x || ''` on an optional string. -/
def orEmptyS (s : Option String) : String := s.getD ""

/-- The double quote character. -/
def dq : Char := Char.ofNat 34
/-- The single quote character. -/
def sq : Char := Char.ofNat 39
/-- The backquote character. -/
def bq : Char := Char.ofNat 96

/-- Is `c` one of the three SQL quoting characters stripped by
`normalizeTableName` (mirrors the character class in the regex). -/
def isQuoteChar (c : Char) : Bool := c = dq || c = sq || c = bq

/-- Remove one leading and one trailing quoting character, if present
(mirrors the regex replace with the anchored quote-character class and
global flag in `normalizeTableName`). -/
def stripQuotesList (l : List Char) : List Char :=
  let l1 := match l with
    | c :: rest => if isQuoteChar c then rest else l
    | [] => l
  match l1.getLast? with
  | some c => if isQuoteChar c then l1.dropLast else l1
  | none => l1

/-- String-level wrapper for `stripQuotesList`. -/
def stripQuotes (s : String) : String := ⟨stripQuotesList s.data⟩

/-- `normalizeTableName(name)` from aliasResolver.js: empty/absent names give
the empty string; otherwise quotes are stripped and the name lowercased. -/
def normalizeTableName (name : Option String) : String :=
  if truthyS name then jsToLower (stripQuotes (name.getD "")) else ""

/-- The alias map built by `buildAliasMap`.  JavaScript `Map` insertion with
later `set` calls overwriting earlier ones is modelled by consing the new
binding in front and looking up the first hit. -/
@[reducible] def AliasMap := List (String × String)

/-- `aliasMap.set(k, v)`. -/
def amSet (m : AliasMap) (k v : String) : AliasMap := (k, v) :: m

/-- `aliasMap.get(k)` (as an option). -/
def amGet (m : AliasMap) (k : String) : Option String :=
  match m with
  | [] => none
  | (k1, v1) :: rest => if k1 = k then some v1 else amGet rest k

/-- `aliasMap.has(k)`. -/
def amHas (m : AliasMap) (k : String) : Bool := (amGet m k).isSome

mutual

/-- Expression nodes, mirroring the `node-sql-parser` node shapes that the
source code dispatches on (`expr.type` tags).  Shapes the source does not
recognize are collapsed into the opaque `unknown` constructor carrying their
serialized form, matching the spec's "opaque fallback for unrecognized
shapes". -/
inductive Expr where
  /-- `{ type: 'column_ref', table, column }` -/
  | column_ref (table : Option String) (column : String)
  /-- `{ type: 'binary_expr', operator, left, right }` -/
  | binary_expr (operator : String) (left right : Expr)
  /-- `{ type: 'function', name, args: { type: 'expr_list', value } }` -/
  | func (fname : String) (args : List Expr)
  /-- `{ type: 'aggr_func', name, args: { type: 'expr_list', value } }` -/
  | aggr_func (fname : String) (args : List Expr)
  /-- `{ type: 'number', value }` -/
  | number (value : Int)
  /-- `{ type: 'single_quote_string', value }` -/
  | single_quote_string (value : String)
  /-- `{ type: 'double_quote_string', value }` -/
  | double_quote_string (value : String)
  /-- `{ type: 'star', value: '*' }` -/
  | star
  /-- `{ type: 'case', args: [...] }` -/
  | case_of (args : List CaseArm)
  /-- `{ type: 'expr_list', value: [...] }` (IN lists etc.) -/
  | expr_list (value : List Expr)
  /-- a node carrying a nested query under `.ast` (subquery) -/
  | subquery (ast : Query)
  /-- any other node shape, kept opaque (carries its serialized form) -/
  | unknown (raw : String)

/-- One WHEN/ELSE arm of a CASE expression: `{ cond, result }`. -/
inductive CaseArm where
  | mk (cond : Option Expr) (result : Option Expr)

/-- One SELECT-list entry: `{ expr, as }`. -/
inductive ColumnEntry where
  | mk (expr : Option Expr) (asName : Option String)

/-- The `columns` field of a query: either the bare string `'*'` or an
array of column entries. -/
inductive Columns where
  | all
  | list (entries : List ColumnEntry)

/-- One FROM-clause entry: `{ table, as, join, on }`. -/
inductive TableRef where
  | mk (table : Option String) (asName : Option String)
       (join : Option String) (onc : Option Expr)

/-- One ORDER BY entry: `{ expr, type }`. -/
inductive OrderEntry where
  | mk (expr : Expr) (dir : String)

/-- A SELECT query AST (the fields the source reads). -/
inductive Query where
  | mk (columns : Option Columns) (from_ : Option (List TableRef))
       (where_ : Option Expr) (groupby : Option (List Expr))
       (having : Option Expr) (orderby : Option (List OrderEntry))

end

namespace CaseArm
def cond : CaseArm → Option Expr | .mk c _ => c
def result : CaseArm → Option Expr | .mk _ r => r
end CaseArm

namespace ColumnEntry
def expr : ColumnEntry → Option Expr | .mk e _ => e
def asName : ColumnEntry → Option String | .mk _ a => a
end ColumnEntry

namespace TableRef
def table : TableRef → Option String | .mk t _ _ _ => t
def asName : TableRef → Option String | .mk _ a _ _ => a
def join : TableRef → Option String | .mk _ _ j _ => j
def onc : TableRef → Option Expr | .mk _ _ _ o => o
end TableRef

namespace OrderEntry
def expr : OrderEntry → Expr | .mk e _ => e
def dir : OrderEntry → String | .mk _ d => d
end OrderEntry

@[simp] theorem CaseArm.cond_mk (c r : Option Expr) : (CaseArm.mk c r).cond = c := rfl
@[simp] theorem CaseArm.result_mk (c r : Option Expr) : (CaseArm.mk c r).result = r := rfl
@[simp] theorem ColumnEntry.centryExpr_mk (e : Option Expr) (a : Option String) :
    (ColumnEntry.mk e a).expr = e := rfl
@[simp] theorem ColumnEntry.centryAsName_mk (e : Option Expr) (a : Option String) :
    (ColumnEntry.mk e a).asName = a := rfl
@[simp] theorem TableRef.table_mk (t a j : Option String) (o : Option Expr) :
    (TableRef.mk t a j o).table = t := rfl
@[simp] theorem TableRef.trefAsName_mk (t a j : Option String) (o : Option Expr) :
    (TableRef.mk t a j o).asName = a := rfl
@[simp] theorem TableRef.join_mk (t a j : Option String) (o : Option Expr) :
    (TableRef.mk t a j o).join = j := rfl
@[simp] theorem TableRef.onc_mk (t a j : Option String) (o : Option Expr) :
    (TableRef.mk t a j o).onc = o := rfl
@[simp] theorem OrderEntry.oentryExpr_mk (e : Expr) (d : String) :
    (OrderEntry.mk e d).expr = e := rfl
@[simp] theorem OrderEntry.dir_mk (e : Expr) (d : String) :
    (OrderEntry.mk e d).dir = d := rfl

namespace Query
def columns : Query → Option Columns | .mk c _ _ _ _ _ => c
def from_ : Query → Option (List TableRef) | .mk _ f _ _ _ _ => f
def where_ : Query → Option Expr | .mk _ _ w _ _ _ => w
def groupby : Query → Option (List Expr) | .mk _ _ _ g _ _ => g
def having : Query → Option Expr | .mk _ _ _ _ h _ => h
def orderby : Query → Option (List OrderEntry) | .mk _ _ _ _ _ o => o
end Query

@[simp] theorem Query.columns_mk (c f w g h o) : (Query.mk c f w g h o).columns = c := rfl
@[simp] theorem Query.from_mk (c f w g h o) : (Query.mk c f w g h o).from_ = f := rfl
@[simp] theorem Query.where_mk (c f w g h o) : (Query.mk c f w g h o).where_ = w := rfl
@[simp] theorem Query.groupby_mk (c f w g h o) : (Query.mk c f w g h o).groupby = g := rfl
@[simp] theorem Query.having_mk (c f w g h o) : (Query.mk c f w g h o).having = h := rfl
@[simp] theorem Query.orderby_mk (c f w g h o) : (Query.mk c f w g h o).orderby = o := rfl

/-- `buildAliasMap(ast)` from aliasResolver.js: walk the FROM clause in order;
a table with an alias contributes alias→canonical and canonical→canonical,
a table without an alias contributes canonical→canonical, an unnamed entry
contributes nothing. -/
def buildAliasMap (ast : Query) : AliasMap :=
  match ast.from_ with
  | none => []
  | some tables =>
    tables.foldl
      (fun m t =>
        let tableName := normalizeTableName t.table
        if truthyS t.table && truthyS t.asName then
          amSet (amSet m (jsToLower (orEmptyS t.asName)) tableName) tableName tableName
        else if truthyS t.table then
          amSet m tableName tableName
        else m)
      []

/-- Render a JSON string literal (the embedding assumes values contain no
characters needing JSON escaping, which holds for every input considered
here; only determinism of the rendering matters for the proofs). -/
def jsonStr (s : String) : String := "\"" ++ s ++ "\""

/-- Render an optional string as JSON (`null` when absent). -/
def jsonOptStr (s : Option String) : String :=
  match s with
  | none => "null"
  | some v => jsonStr v

mutual

/-- A deterministic model of `JSON.stringify` on expression nodes, used by
`generateSortKey` for function arguments and for its fallback branch. -/
def jsonOfExpr : Expr → String
  | .column_ref t c =>
    "\x7b\"type\":\"column_ref\",\"table\":" ++ jsonOptStr t ++
      ",\"column\":" ++ jsonStr c ++ "\x7d"
  | .binary_expr op l r =>
    "\x7b\"type\":\"binary_expr\",\"operator\":" ++ jsonStr op ++
      ",\"left\":" ++ jsonOfExpr l ++ ",\"right\":" ++ jsonOfExpr r ++ "\x7d"
  | .func n args =>
    "\x7b\"type\":\"function\",\"name\":" ++ jsonStr n ++
      ",\"args\":" ++ jsonOfArgsObj args ++ "\x7d"
  | .aggr_func n args =>
    "\x7b\"type\":\"aggr_func\",\"name\":" ++ jsonStr n ++
      ",\"args\":" ++ jsonOfArgsObj args ++ "\x7d"
  | .number v =>
    "\x7b\"type\":\"number\",\"value\":" ++ toString v ++ "\x7d"
  | .single_quote_string v =>
    "\x7b\"type\":\"single_quote_string\",\"value\":" ++ jsonStr v ++ "\x7d"
  | .double_quote_string v =>
    "\x7b\"type\":\"double_quote_string\",\"value\":" ++ jsonStr v ++ "\x7d"
  | .star => "\x7b\"type\":\"star\",\"value\":\"*\"\x7d"
  | .case_of args =>
    "\x7b\"type\":\"case\",\"args\":[" ++ jsonOfArmList args ++ "]\x7d"
  | .expr_list value =>
    "\x7b\"type\":\"expr_list\",\"value\":[" ++ jsonOfExprList value ++ "]\x7d"
  | .subquery ast =>
    "\x7b\"ast\":" ++ jsonOfQuery ast ++ "\x7d"
  | .unknown raw => raw

/-- The `args` object of a function node: `{ type: 'expr_list', value: [...] }`. -/
def jsonOfArgsObj (args : List Expr) : String :=
  "\x7b\"type\":\"expr_list\",\"value\":[" ++ jsonOfExprList args ++ "]\x7d"

def jsonOfExprList : List Expr → String
  | [] => ""
  | [e] => jsonOfExpr e
  | e :: es => jsonOfExpr e ++ "," ++ jsonOfExprList es

def jsonOfArm : CaseArm → String
  | .mk c r =>
    "\x7b\"cond\":" ++ jsonOfOptExpr c ++ ",\"result\":" ++ jsonOfOptExpr r ++ "\x7d"

def jsonOfArmList : List CaseArm → String
  | [] => ""
  | [a] => jsonOfArm a
  | a :: as_ => jsonOfArm a ++ "," ++ jsonOfArmList as_

def jsonOfOptExpr : Option Expr → String
  | none => "null"
  | some e => jsonOfExpr e

def jsonOfColumnEntry : ColumnEntry → String
  | .mk e a =>
    "\x7b\"expr\":" ++ jsonOfOptExpr e ++ ",\"as\":" ++ jsonOptStr a ++ "\x7d"

def jsonOfColumnEntryList : List ColumnEntry → String
  | [] => ""
  | [c] => jsonOfColumnEntry c
  | c :: cs => jsonOfColumnEntry c ++ "," ++ jsonOfColumnEntryList cs

def jsonOfColumns : Columns → String
  | .all => "\"*\""
  | .list entries => "[" ++ jsonOfColumnEntryList entries ++ "]"

def jsonOfTableRef : TableRef → String
  | .mk t a j o =>
    "\x7b\"table\":" ++ jsonOptStr t ++ ",\"as\":" ++ jsonOptStr a ++
      ",\"join\":" ++ jsonOptStr j ++ ",\"on\":" ++ jsonOfOptExpr o ++ "\x7d"

def jsonOfTableRefList : List TableRef → String
  | [] => ""
  | [t] => jsonOfTableRef t
  | t :: ts => jsonOfTableRef t ++ "," ++ jsonOfTableRefList ts

def jsonOfOrderEntry : OrderEntry → String
  | .mk e d =>
    "\x7b\"expr\":" ++ jsonOfExpr e ++ ",\"type\":" ++ jsonStr d ++ "\x7d"

def jsonOfOrderEntryList : List OrderEntry → String
  | [] => ""
  | [o] => jsonOfOrderEntry o
  | o :: os => jsonOfOrderEntry o ++ "," ++ jsonOfOrderEntryList os

def jsonOfQuery : Query → String
  | .mk cols frm wh gb hv ob =>
    "\x7b\"columns\":" ++ (match cols with | none => "null" | some c => jsonOfColumns c) ++
      ",\"from\":" ++ (match frm with | none => "null" | some ts => "[" ++ jsonOfTableRefList ts ++ "]") ++
      ",\"where\":" ++ jsonOfOptExpr wh ++
      ",\"groupby\":" ++ (match gb with | none => "null" | some es => "[" ++ jsonOfExprList es ++ "]") ++
      ",\"having\":" ++ jsonOfOptExpr hv ++
      ",\"orderby\":" ++ (match ob with | none => "null" | some os => "[" ++ jsonOfOrderEntryList os ++ "]") ++
      "\x7d"

end

/-- The body of `generateSortKey(expr)` from elementSorter.js on an actual
node (the `!expr` guard lives in the optional wrapper `generateSortKey`
below; the `typeof` string/number branches concern raw JavaScript
primitives which never occur as AST nodes in the tree model and are
therefore not represented). -/
def generateSortKeyE : Expr → String
  | .column_ref t c => jsToLower (orEmptyS t ++ "." ++ c)
  | .binary_expr op l r =>
    generateSortKeyE l ++ "|" ++ op ++ "|" ++ generateSortKeyE r
  | .func n args => jsToLower ("fn:" ++ n ++ "(" ++ jsonOfArgsObj args ++ ")")
  | .aggr_func n args => jsToLower ("fn:" ++ n ++ "(" ++ jsonOfArgsObj args ++ ")")
  | .number v => toString v
  | .single_quote_string v => "\"" ++ v ++ "\""
  | .star => "*"
  | e1 => jsToLower (jsonOfExpr e1)

/-- `generateSortKey(expr)` from elementSorter.js, including the
`if (!expr) return ''` guard for an absent argument. -/
def generateSortKey (expr : Option Expr) : String :=
  match expr with
  | none => ""
  | some e => generateSortKeyE e

/-- Lexicographic strict comparison of character lists by code point,
modelling JavaScript string comparison (`<`, `>`, and the ordering that
`localeCompare` induces on the ASCII sort keys used here). -/
def charListLt : List Char → List Char → Bool
  | [], [] => false
  | [], _ :: _ => true
  | _ :: _, [] => false
  | a :: as1, b :: bs1 =>
    if a.toNat < b.toNat then true
    else if b.toNat < a.toNat then false
    else charListLt as1 bs1

/-- JavaScript `a < b` on strings. -/
def jsLtB (a b : String) : Bool := charListLt a.toList b.toList

/-- JavaScript `a <= b` on strings (the non-strict order induced by the
comparator `(a, b) => a.localeCompare(b)` on ASCII keys). -/
def jsLeB (a b : String) : Bool := !jsLtB b a

theorem charToNat_inj {a b : Char} (h : a.toNat = b.toNat) : a = b := by
  simpa [Char.toNat, UInt32.toNat, BitVec.toNat_eq, Char.ext_iff, UInt32.ext_iff] using h

theorem charListLt_asymm : ∀ {x y : List Char},
    charListLt x y = true → charListLt y x = false
  | [], [], h => by simp [charListLt] at h
  | [], _ :: _, _ => by simp [charListLt]
  | _ :: _, [], h => by simp [charListLt] at h
  | a :: as1, b :: bs1, h => by
    simp only [charListLt] at h ⊢
    rcases Nat.lt_trichotomy a.toNat b.toNat with hab | hab | hab
    · simp only [hab, if_true] at h
      simp [Nat.not_lt.mpr (Nat.le_of_lt hab), Nat.lt_irrefl, hab]
    · simp only [hab, Nat.lt_irrefl, if_false] at h ⊢
      exact charListLt_asymm h
    · simp [Nat.not_lt.mpr (Nat.le_of_lt hab), hab] at h

theorem charListLt_trans : ∀ {x y z : List Char},
    charListLt x y = true → charListLt y z = true → charListLt x z = true
  | [], _, _ :: _, _, _ => by simp [charListLt]
  | [], [], _, h, _ => by simp [charListLt] at h
  | [], _ :: _, [], _, h2 => by simp [charListLt] at h2
  | _ :: _, [], _, h1, _ => by simp [charListLt] at h1
  | _ :: _, _ :: _, [], _, h2 => by simp [charListLt] at h2
  | a :: as1, b :: bs1, c :: cs1, h1, h2 => by
    simp only [charListLt] at h1 h2 ⊢
    rcases Nat.lt_trichotomy a.toNat b.toNat with hab | hab | hab
    · rcases Nat.lt_trichotomy b.toNat c.toNat with hbc | hbc | hbc
      · simp [Nat.lt_trans hab hbc]
      · simp [hbc ▸ hab]
      · simp [Nat.not_lt.mpr (Nat.le_of_lt hbc), hbc] at h2
    · rcases Nat.lt_trichotomy b.toNat c.toNat with hbc | hbc | hbc
      · simp [hab ▸ hbc]
      · have hac : a.toNat = c.toNat := hab.trans hbc
        simp only [hab, Nat.lt_irrefl, if_false] at h1
        simp only [hbc, Nat.lt_irrefl, if_false] at h2
        simp only [hac, Nat.lt_irrefl, if_false]
        exact charListLt_trans h1 h2
      · simp [Nat.not_lt.mpr (Nat.le_of_lt hbc), hbc] at h2
    · simp [Nat.not_lt.mpr (Nat.le_of_lt hab), hab] at h1

theorem charListLt_eq_of_not_lt : ∀ {x y : List Char},
    charListLt x y = false → charListLt y x = false → x = y
  | [], [], _, _ => rfl
  | [], _ :: _, h1, _ => by simp [charListLt] at h1
  | _ :: _, [], _, h2 => by simp [charListLt] at h2
  | a :: as1, b :: bs1, h1, h2 => by
    simp only [charListLt] at h1 h2
    rcases Nat.lt_trichotomy a.toNat b.toNat with hab | hab | hab
    · simp [hab] at h1
    · simp only [hab, Nat.lt_irrefl, if_false] at h1 h2
      rw [charToNat_inj hab, charListLt_eq_of_not_lt h1 h2]
    · simp [hab] at h2

theorem charListLt_false_trans {x y z : List Char}
    (h1 : charListLt y x = false) (h2 : charListLt z y = false) :
    charListLt z x = false := by
  by_cases hzx : charListLt z x = true
  · by_cases hxy : charListLt x y = true
    · exact absurd (charListLt_trans hzx hxy) (by simp [h2])
    · have hxy' := charListLt_eq_of_not_lt (by simpa using hxy) h1
      exact absurd (hxy' ▸ hzx) (by simp [h2])
  · simpa using hzx

theorem jsLeB_total (a b : String) : jsLeB a b = true ∨ jsLeB b a = true := by
  by_cases h : charListLt b.toList a.toList = true
  · exact Or.inr (by
      simp only [jsLeB, jsLtB, Bool.not_eq_true']
      exact charListLt_asymm h)
  · exact Or.inl (by
      simp only [jsLeB, jsLtB, Bool.not_eq_true']
      simpa using h)

theorem jsLeB_trans {a b c : String} (h1 : jsLeB a b = true) (h2 : jsLeB b c = true) :
    jsLeB a c = true := by
  simp only [jsLeB, jsLtB, Bool.not_eq_true'] at h1 h2 ⊢
  exact charListLt_false_trans h1 h2

theorem jsLeB_antisymm {a b : String} (h1 : jsLeB a b = true) (h2 : jsLeB b a = true) :
    a = b := by
  simp only [jsLeB, jsLtB, Bool.not_eq_true'] at h1 h2
  exact String.ext (charListLt_eq_of_not_lt h2 h1)

theorem jsLeB_refl (a : String) : jsLeB a a = true := by
  rcases jsLeB_total a a with h | h <;> exact h

/-- The ascending sort-key order used by every `.sort((a, b) =>
generateSortKey(a).localeCompare(generateSortKey(b)))` call: lexicographic
comparison of the two keys. -/
def exprKeyLe (a b : Expr) : Prop :=
  jsLeB (generateSortKeyE a) (generateSortKeyE b) = true

instance : DecidableRel exprKeyLe := fun a b =>
  inferInstanceAs (Decidable (_ = true))

instance : IsTotal Expr exprKeyLe :=
  ⟨fun a b => jsLeB_total (generateSortKeyE a) (generateSortKeyE b)⟩

instance : IsTrans Expr exprKeyLe :=
  ⟨fun _ _ _ h1 h2 => jsLeB_trans h1 h2⟩

/-- `flattenConditions(expr, operator)` from elementSorter.js: collect the
maximal run of `operator`-joined children into a flat list. -/
def flattenConditions (e : Expr) (operator : String) : List Expr :=
  match e with
  | .binary_expr o l r =>
    if jsToUpper o = operator then
      flattenConditions l operator ++ flattenConditions r operator
    else [.binary_expr o l r]
  | e1 => [e1]

/-- `rebuildConditionTree(conditions, operator)` from elementSorter.js:
build a right-associated binary tree (`null` for an empty list). -/
def rebuildConditionTree (conditions : List Expr) (operator : String) : Option Expr :=
  match conditions with
  | [] => none
  | [c] => some c
  | c :: cs =>
    match rebuildConditionTree cs operator with
    | some rest => some (.binary_expr (jsToUpper operator) c rest)
    | none => some c

theorem flattenConditions_ne_nil (e : Expr) (op : String) :
    flattenConditions e op ≠ [] := by
  intro hc
  rw [flattenConditions.eq_def] at hc
  split at hc
  case _ o l r =>
    split at hc
    · exact flattenConditions_ne_nil l op (List.append_eq_nil.mp hc).1
    · simp at hc
  case _ => simp at hc
termination_by sizeOf e

theorem sizeOf_le_of_mem_flattenConditions (e : Expr) (op : String) :
    ∀ x ∈ flattenConditions e op, sizeOf x ≤ sizeOf e := by
  intro x hx
  rw [flattenConditions.eq_def] at hx
  split at hx
  case _ o l r =>
    split at hx
    · rcases List.mem_append.1 hx with h | h
      · have := sizeOf_le_of_mem_flattenConditions l op x h
        simp only [Expr.binary_expr.sizeOf_spec]
        omega
      · have := sizeOf_le_of_mem_flattenConditions r op x h
        simp only [Expr.binary_expr.sizeOf_spec]
        omega
    · simp only [List.mem_singleton] at hx
      subst hx
      exact le_refl _
  case _ =>
    simp only [List.mem_singleton] at hx
    subst hx
    exact le_refl _

theorem sizeOf_lt_of_mem_flattenConditions {o : String} {l r : Expr} {op : String}
    (h : jsToUpper o = op) (x : Expr)
    (hx : x ∈ flattenConditions (.binary_expr o l r) op) :
    sizeOf x < sizeOf (Expr.binary_expr o l r) := by
  rw [flattenConditions.eq_def] at hx
  simp only [h, if_true] at hx
  rcases List.mem_append.1 hx with hm | hm
  · have := sizeOf_le_of_mem_flattenConditions l op x hm
    simp only [Expr.binary_expr.sizeOf_spec]
    omega
  · have := sizeOf_le_of_mem_flattenConditions r op x hm
    simp only [Expr.binary_expr.sizeOf_spec]
    omega

/-- The list of "commutative" operators from `sortWhereConditionsInPlace`. -/
def commutativeOps : List String := ["=", "!=", "<>", "AND", "OR"]

/-- `sortWhereConditionsInPlace(expr)` from elementSorter.js: flatten an
AND (resp. OR) run, recursively canonicalize every operand, sort the
operands ascending by sort key (stably), and rebuild a right-associated
tree; for any other binary expression, swap the operands when the operator
is literally `=` and the left key exceeds the right key. -/
def sortWhereConditionsInPlace (e : Expr) : Expr :=
  match e with
  | .binary_expr op l r =>
    if h1 : jsToUpper op = "AND" then
      let conditions := flattenConditions (.binary_expr op l r) "AND"
      let sortedConditions :=
        (conditions.attach.map fun c => sortWhereConditionsInPlace c.1).insertionSort exprKeyLe
      -- the flattened list is never empty, so rebuilding never yields null
      match rebuildConditionTree sortedConditions "AND" with
      | some t => t
      | none => .binary_expr op l r
    else if h2 : jsToUpper op = "OR" then
      let conditions := flattenConditions (.binary_expr op l r) "OR"
      let sortedConditions :=
        (conditions.attach.map fun c => sortWhereConditionsInPlace c.1).insertionSort exprKeyLe
      match rebuildConditionTree sortedConditions "OR" with
      | some t => t
      | none => .binary_expr op l r
    else
      if commutativeOps.contains (jsToUpper op) then
        let leftKey := generateSortKeyE l
        let rightKey := generateSortKeyE r
        -- JS: if (leftKey > rightKey && expr.operator === '=') swap
        if jsLtB rightKey leftKey && op == "=" then .binary_expr op r l
        else .binary_expr op l r
      else .binary_expr op l r
  | e1 => e1
termination_by sizeOf e
decreasing_by
  · exact sizeOf_lt_of_mem_flattenConditions h1 c.1 c.2
  · exact sizeOf_lt_of_mem_flattenConditions h2 c.1 c.2

/-- `sortWhereConditions(where)` from elementSorter.js: clone (a value copy
in this embedding) and canonicalize; `null` passes through. -/
def sortWhereConditions (w : Option Expr) : Option Expr :=
  match w with
  | none => none
  | some e => some (sortWhereConditionsInPlace e)

/-- Discriminator: is this node a `binary_expr`? -/
def Expr.isBinary : Expr → Bool
  | .binary_expr _ _ _ => true
  | _ => false

theorem sortWhere_not_binary {e : Expr} (h : e.isBinary = false) :
    sortWhereConditionsInPlace e = e := by
  rw [sortWhereConditionsInPlace.eq_def]
  cases e <;> simp_all [Expr.isBinary]

theorem sortWhere_and (op : String) (l r : Expr) (h : jsToUpper op = "AND") :
    sortWhereConditionsInPlace (.binary_expr op l r) =
      match rebuildConditionTree
          (((flattenConditions (.binary_expr op l r) "AND").map
              sortWhereConditionsInPlace).insertionSort exprKeyLe) "AND" with
      | some t => t
      | none => .binary_expr op l r := by
  rw [sortWhereConditionsInPlace.eq_def]
  simp only [dif_pos h, List.attach_map_coe, List.attach_map_val]

theorem sortWhere_or (op : String) (l r : Expr) (hA : jsToUpper op ≠ "AND")
    (h : jsToUpper op = "OR") :
    sortWhereConditionsInPlace (.binary_expr op l r) =
      match rebuildConditionTree
          (((flattenConditions (.binary_expr op l r) "OR").map
              sortWhereConditionsInPlace).insertionSort exprKeyLe) "OR" with
      | some t => t
      | none => .binary_expr op l r := by
  rw [sortWhereConditionsInPlace.eq_def]
  simp only [dif_neg hA, dif_pos h, List.attach_map_coe, List.attach_map_val]

theorem sortWhere_cmp (op : String) (l r : Expr) (hA : jsToUpper op ≠ "AND")
    (hO : jsToUpper op ≠ "OR") :
    sortWhereConditionsInPlace (.binary_expr op l r) =
      (if commutativeOps.contains (jsToUpper op) then
        if jsLtB (generateSortKeyE r) (generateSortKeyE l) && op == "=" then
          Expr.binary_expr op r l
        else Expr.binary_expr op l r
      else Expr.binary_expr op l r) := by
  rw [sortWhereConditionsInPlace.eq_def]
  simp only [dif_neg hA, dif_neg hO]

/-- `normalizeTableEntry(table)` from aliasResolver.js: canonicalize a named
table's name and delete a (truthy) alias annotation. -/
def normalizeTableEntry (t : TableRef) : TableRef :=
  match t with
  | .mk table asN join onc =>
    .mk (if truthyS table then some (normalizeTableName table) else table)
        (if truthyS asN then none else asN)
        join onc

/-- The implicit-table computation at the top of `resolveAstAliases`:
when FROM has exactly one (truthy-)named entry, its canonical name. -/
def implicitFromList : Option (List TableRef) → Option String
  | some [t] => if truthyS t.table then some (normalizeTableName t.table) else none
  | _ => none

mutual

/-- `resolveExpressionAliasesInPlace(expr, aliasMap, implicitTable)` from
aliasResolver.js: rewrite a qualified column reference through the alias
map on a hit, inject the implicit table into an unqualified reference, and
recurse through binary operands, function argument lists, CASE arms,
expression lists and subqueries (the latter with a freshly built map). -/
def resolveExpressionAliasesInPlace (amap : AliasMap) (impl : Option String) :
    Expr → Expr
  | .column_ref t c =>
    if truthyS t then
      let tableLower := normalizeTableName t
      match amGet amap tableLower with
      | some v => .column_ref (some v) c
      | none => .column_ref t c
    else if truthyS impl then .column_ref impl c
    else .column_ref t c
  | .binary_expr op l r =>
    .binary_expr op (resolveExpressionAliasesInPlace amap impl l)
      (resolveExpressionAliasesInPlace amap impl r)
  | .func n args => .func n (resolveExprList amap impl args)
  | .aggr_func n args => .aggr_func n (resolveExprList amap impl args)
  | .case_of arms => .case_of (resolveArmList amap impl arms)
  | .expr_list value => .expr_list (resolveExprList amap impl value)
  | .subquery ast => .subquery (resolveAstAliases ast (buildAliasMap ast))
  | e => e

def resolveOptExpr (amap : AliasMap) (impl : Option String) :
    Option Expr → Option Expr
  | none => none
  | some e => some (resolveExpressionAliasesInPlace amap impl e)

def resolveExprList (amap : AliasMap) (impl : Option String) :
    List Expr → List Expr
  | [] => []
  | e :: es => resolveExpressionAliasesInPlace amap impl e :: resolveExprList amap impl es

def resolveArm (amap : AliasMap) (impl : Option String) : CaseArm → CaseArm
  | .mk c r => .mk (resolveOptExpr amap impl c) (resolveOptExpr amap impl r)

def resolveArmList (amap : AliasMap) (impl : Option String) :
    List CaseArm → List CaseArm
  | [] => []
  | a :: as_ => resolveArm amap impl a :: resolveArmList amap impl as_

def resolveColumnEntryList (amap : AliasMap) (impl : Option String) :
    List ColumnEntry → List ColumnEntry
  | [] => []
  | .mk e a :: rest =>
    .mk (resolveOptExpr amap impl e) a :: resolveColumnEntryList amap impl rest

/-- The FROM-clause loop of `resolveAstAliases`: `normalizeTableEntry` (its
body inlined on the destructured fields) followed by resolution of a
present ON condition. -/
def resolveTableRefList (amap : AliasMap) (impl : Option String) :
    List TableRef → List TableRef
  | [] => []
  | .mk table asN join onc :: rest =>
    TableRef.mk (if truthyS table then some (normalizeTableName table) else table)
        (if truthyS asN then none else asN)
        join (resolveOptExpr amap impl onc)
      :: resolveTableRefList amap impl rest

def resolveOrderEntryList (amap : AliasMap) (impl : Option String) :
    List OrderEntry → List OrderEntry
  | [] => []
  | .mk e d :: rest =>
    OrderEntry.mk (resolveExpressionAliasesInPlace amap impl e) d
      :: resolveOrderEntryList amap impl rest

/-- The select-list branch of `resolveAstAliases` (runs only on an array). -/
def resolveColumnsField (amap : AliasMap) (impl : Option String) :
    Option Columns → Option Columns
  | some (.list entries) => some (.list (resolveColumnEntryList amap impl entries))
  | c => c

def resolveFromField (amap : AliasMap) (impl : Option String) :
    Option (List TableRef) → Option (List TableRef)
  | some ts => some (resolveTableRefList amap impl ts)
  | none => none

def resolveGroupbyField (amap : AliasMap) (impl : Option String) :
    Option (List Expr) → Option (List Expr)
  | some es => some (resolveExprList amap impl es)
  | none => none

def resolveOrderbyField (amap : AliasMap) (impl : Option String) :
    Option (List OrderEntry) → Option (List OrderEntry)
  | some os => some (resolveOrderEntryList amap impl os)
  | none => none

/-- `resolveAstAliases(ast, aliasMap)` from aliasResolver.js: compute the
implicit table (FROM has exactly one named entry), then resolve the select
list, the FROM entries (normalizing names, deleting aliases, resolving ON),
WHERE, GROUP BY, HAVING and ORDER BY. -/
def resolveAstAliases : Query → AliasMap → Query
  | .mk cols frm wh gb hv ob, amap =>
    let impl : Option String := implicitFromList frm
    Query.mk
      (resolveColumnsField amap impl cols)
      (resolveFromField amap impl frm)
      (resolveOptExpr amap impl wh)
      (resolveGroupbyField amap impl gb)
      (resolveOptExpr amap impl hv)
      (resolveOrderbyField amap impl ob)

end

/-- Whether a select entry has a star expression
(JS `c.expr && c.expr.type === 'star'`). -/
def isStarEntry (c : ColumnEntry) : Bool :=
  match c.expr with
  | some .star => true
  | _ => false

/-- Sort-key order on select entries: key of the entry's expression. -/
def columnKeyLe (a b : ColumnEntry) : Prop :=
  jsLeB (generateSortKey a.expr) (generateSortKey b.expr) = true

instance : DecidableRel columnKeyLe := fun _ _ =>
  inferInstanceAs (Decidable (_ = true))

instance : IsTotal ColumnEntry columnKeyLe :=
  ⟨fun a b => jsLeB_total (generateSortKey a.expr) (generateSortKey b.expr)⟩

instance : IsTrans ColumnEntry columnKeyLe :=
  ⟨fun _ _ _ h1 h2 => jsLeB_trans h1 h2⟩

/-- `sortSelectColumns(columns)` from elementSorter.js: `null` and the bare
`'*'` marker pass through; otherwise star entries are kept first in order
and the remaining entries are stably sorted ascending by sort key. -/
def sortSelectColumns (c : Option Columns) : Option Columns :=
  match c with
  | none => none
  | some .all => some .all
  | some (.list entries) =>
    let starCols := entries.filter isStarEntry
    let otherCols := entries.filter (fun x => !isStarEntry x)
    some (.list (starCols ++ otherCols.insertionSort columnKeyLe))

/-- The join sort key from `sortJoinClauses`:
lowercased `"<joinType>.<tableName>"`. -/
def joinKey (t : TableRef) : String :=
  jsToLower (orEmptyS t.join ++ "." ++ orEmptyS t.table)

/-- Ascending order on join entries by `joinKey`. -/
def joinKeyLe (a b : TableRef) : Prop := jsLeB (joinKey a) (joinKey b) = true

instance : DecidableRel joinKeyLe := fun _ _ =>
  inferInstanceAs (Decidable (_ = true))

instance : IsTotal TableRef joinKeyLe :=
  ⟨fun a b => jsLeB_total (joinKey a) (joinKey b)⟩

instance : IsTrans TableRef joinKeyLe :=
  ⟨fun _ _ _ h1 h2 => jsLeB_trans h1 h2⟩

/-- The per-join ON canonicalization loop of `sortJoinClauses`
(`if (join.on) join.on = sortWhereConditions(join.on)`). -/
def sortJoinOn (t : TableRef) : TableRef :=
  match t with
  | .mk table asN join onc =>
    .mk table asN join
      (match onc with
       | some e => some (sortWhereConditionsInPlace e)
       | none => none)

/-- `sortJoinClauses(from)` from elementSorter.js: a missing FROM or one with
at most one entry passes through; otherwise the anchor is kept and the
remaining joins are sorted ascending by `joinKey`, each join's ON condition
canonicalized. -/
def sortJoinClauses (f : Option (List TableRef)) : Option (List TableRef) :=
  match f with
  | none => none
  | some l =>
    if l.length ≤ 1 then some l
    else
      match l with
      | [] => some []  -- unreachable under the length guard
      | t :: joins => some (t :: (joins.insertionSort joinKeyLe).map sortJoinOn)

/-- `sortGroupBy(groupby)` from elementSorter.js. -/
def sortGroupBy (g : Option (List Expr)) : Option (List Expr) :=
  match g with
  | none => none
  | some l => some (l.insertionSort exprKeyLe)

/-- The five independent boolean toggles of `normalizeQuery` (all default
`true`); the dialect is folded into the abstract parse function. -/
structure NormOptions where
  resolveAliases : Bool := true
  sortColumns : Bool := true
  sortJoins : Bool := true
  sortWhere : Bool := true
  sortGroupBy : Bool := true

/-- One entry of the implicit select-alias pass inside `normalizeQuery`:
an entry without a (truthy) output alias whose expression is a bare column
reference receives the column's own name; then an entry still without an
alias whose expression is a double-quoted string receives that string's
value. -/
def stdSelectAliasEntry (ce : ColumnEntry) : ColumnEntry :=
  match ce with
  | .mk e a =>
    let a1 := if !truthyS a then
        match e with
        | some (.column_ref _ col) => some col
        | _ => a
      else a
    let a2 := if !truthyS a1 then
        match e with
        | some (.double_quote_string v) => some v
        | _ => a1
      else a1
    .mk e a2

/-- The implicit select-alias pass of `normalizeQuery` (runs only when
`columns` is an array). -/
def standardizeSelectAliases (c : Option Columns) : Option Columns :=
  match c with
  | some (.list entries) => some (.list (entries.map stdSelectAliasEntry))
  | c1 => c1

/-- The AST-transformation core of `normalizeQuery` (everything between the
clone of the parsed tree and serialization): optional alias resolution, the
implicit select-alias pass, then the four conditional sorts.  The source's
per-step `&& normalizedAst.field` guards are subsumed because each sort
function maps `null` to `null`. -/
def transformAst (opts : NormOptions) (ast : Query) : Query :=
  let q1 := if opts.resolveAliases then resolveAstAliases ast (buildAliasMap ast) else ast
  let q2 := match q1 with
    | .mk cols frm wh gb hv ob => Query.mk (standardizeSelectAliases cols) frm wh gb hv ob
  match q2 with
  | .mk cols frm wh gb hv ob =>
    Query.mk (if opts.sortColumns then sortSelectColumns cols else cols)
             (if opts.sortJoins then sortJoinClauses frm else frm)
             (if opts.sortWhere then sortWhereConditions wh else wh)
             (if opts.sortGroupBy then sortGroupBy gb else gb)
             hv ob

/-- The result of the (external) `parseSQL`: exactly one of `ast`/`error`
is meaningful, but nothing here assumes that. -/
structure ParseResult where
  ast : Option Query
  error : Option String

/-- The result shape of `normalizeQuery`. -/
structure NormalizeResult where
  normalized : Option String
  ast : Option Query
  error : Option String

/-- `normalizeQuery(sql, options)` from sqlNormalizer.js, with the external
parser and the serializer+prettifier composition abstracted as the function
parameters `parse` and `render` (`render` models
`prettifySQL(astToSQL(ast, database))`, which never throws: `astToSQL`
catches serialization errors and returns a placeholder string).  The
canonicalization stages of this embedding are total functions, so the
source's `try/catch` around them never fires and is not represented. -/
def normalizeQuery (parse : String → ParseResult) (render : Query → String)
    (opts : NormOptions) (sql : String) : NormalizeResult :=
  let p := parse sql
  if truthyS p.error then { normalized := none, ast := none, error := p.error }
  else
    match p.ast with
    | none => { normalized := none, ast := none, error := some "Empty or invalid SQL" }
    | some ast =>
      let normalizedAst := transformAst opts ast
      { normalized := some (render normalizedAst), ast := some normalizedAst, error := none }

/-- The result shape of `compareQueries`. -/
structure CompareResult where
  isEquivalent : Bool
  normalized1 : Option String
  normalized2 : Option String
  error1 : Option String
  error2 : Option String

/-- `compareQueries(sql1, sql2, options)` from sqlNormalizer.js: normalize
both sides under the same options; equivalent iff neither side's error is
truthy and the canonical texts are strictly equal. -/
def compareQueries (parse : String → ParseResult) (render : Query → String)
    (opts : NormOptions) (sql1 sql2 : String) : CompareResult :=
  let result1 := normalizeQuery parse render opts sql1
  let result2 := normalizeQuery parse render opts sql2
  { isEquivalent :=
      !truthyS result1.error && !truthyS result2.error &&
        result1.normalized == result2.normalized
    normalized1 := result1.normalized
    normalized2 := result2.normalized
    error1 := result1.error
    error2 := result2.error }

/-! ## Helper lemmas about the orchestrator -/

theorem truthyS_isSome {s : Option String} (h : truthyS s = true) : s.isSome := by
  cases s <;> simp_all [truthyS]

/-- `normalizeQuery` never reports a falsy-but-present error: its `error`
field is truthy exactly when it is set. -/
theorem normalizeQuery_truthyS_error (parse : String → ParseResult)
    (render : Query → String) (opts : NormOptions) (sql : String) :
    truthyS (normalizeQuery parse render opts sql).error
      = (normalizeQuery parse render opts sql).error.isSome := by
  by_cases h : truthyS (parse sql).error = true
  · simp [normalizeQuery, h, truthyS_isSome h]
  · simp only [Bool.not_eq_true] at h
    cases hast : (parse sql).ast
    · simp only [normalizeQuery, h, hast, Bool.false_eq_true, if_false]
      decide
    · simp only [normalizeQuery, h, hast, Bool.false_eq_true, if_false]
      decide

/-- `normalizeQuery` produces a canonical text exactly when no error is
reported. -/
theorem normalizeQuery_normalized_iff (parse : String → ParseResult)
    (render : Query → String) (opts : NormOptions) (sql : String) :
    (normalizeQuery parse render opts sql).normalized.isSome
      ↔ (normalizeQuery parse render opts sql).error = none := by
  by_cases h : truthyS (parse sql).error = true
  · have := truthyS_isSome h
    cases he : (parse sql).error
    · simp [he] at this
    · rw [he] at h
      simp [normalizeQuery, h, he]
  · simp only [Bool.not_eq_true] at h
    cases hast : (parse sql).ast <;> simp [normalizeQuery, h, hast]

/-! ## A stability property of the stable sort

The embedding's `List.insertionSort` (the model of the stable
`Array.prototype.sort`) preserves, for each key value, the original
relative order of the elements carrying that key. -/

theorem pairwise_of_const_key {α : Type} (r : α → α → Prop)
    (key : α → String) (hr : ∀ a b, key a = key b → r a b) :
    ∀ (c : List α) (k : String), (∀ x ∈ c, key x = k) → c.Pairwise r
  | [], _, _ => List.Pairwise.nil
  | x :: xs, k, h => by
    refine List.Pairwise.cons (fun y hy => ?_) (pairwise_of_const_key r key hr xs k ?_)
    · exact hr x y ((h x (List.mem_cons_self x xs)).trans
        (h y (List.mem_cons_of_mem x hy)).symm)
    · exact fun y hy => h y (List.mem_cons_of_mem x hy)

theorem insertionSort_filter_key {α : Type} (r : α → α → Prop) [DecidableRel r]
    [IsTotal α r] [IsTrans α r] (key : α → String)
    (hr : ∀ a b, key a = key b → r a b) (l : List α) (k : String) :
    (l.insertionSort r).filter (fun x => key x == k)
      = l.filter (fun x => key x == k) := by
  set p : α → Bool := fun x => key x == k with hp
  have hmemp : ∀ x ∈ l.filter p, key x = k := by
    intro x hx
    have := (List.mem_filter.mp hx).2
    simpa [hp] using this
  have hpair : (l.filter p).Pairwise r :=
    pairwise_of_const_key r key hr (l.filter p) k hmemp
  have hsub : List.Sublist (l.filter p) (l.insertionSort r) :=
    List.sublist_insertionSort hpair (List.filter_sublist l)
  have hsub2 : List.Sublist ((l.filter p).filter p) ((l.insertionSort r).filter p) :=
    List.Sublist.filter p hsub
  rw [List.filter_filter] at hsub2
  have hff : (l.filter (fun a => p a && p a)) = l.filter p := by
    simp
  rw [hff] at hsub2
  have hperm : List.Perm ((l.insertionSort r).filter p) (l.filter p) :=
    (List.perm_insertionSort r l).filter p
  exact ((List.Sublist.eq_of_length hsub2 hperm.length_eq.symm).symm)

/-! ## Claim theorems -/

/-- **C1.** For every pair of input texts and every parse/render/options
setting, `compareQueries` reports equivalent iff `normalizeQuery` succeeded
on both sides (neither side's `error` is set) and the two canonical texts
are exactly string-equal; the per-side errors and normalized outputs are
those of the corresponding `normalizeQuery` run, so when exactly one side
fails the verdict is not-equivalent and an error is populated only for the
failing side. -/
theorem compareQueries_equiv_iff (parse : String → ParseResult)
    (render : Query → String) (opts : NormOptions) (sql1 sql2 : String) :
    ((compareQueries parse render opts sql1 sql2).isEquivalent = true ↔
      ((normalizeQuery parse render opts sql1).error = none ∧
       (normalizeQuery parse render opts sql2).error = none ∧
       (normalizeQuery parse render opts sql1).normalized =
         (normalizeQuery parse render opts sql2).normalized))
    ∧ (compareQueries parse render opts sql1 sql2).error1 =
        (normalizeQuery parse render opts sql1).error
    ∧ (compareQueries parse render opts sql1 sql2).error2 =
        (normalizeQuery parse render opts sql2).error
    ∧ ((normalizeQuery parse render opts sql1).error = none →
        (normalizeQuery parse render opts sql2).error ≠ none →
        (compareQueries parse render opts sql1 sql2).isEquivalent = false ∧
        (compareQueries parse render opts sql1 sql2).error1 = none ∧
        (compareQueries parse render opts sql1 sql2).error2 ≠ none)
    ∧ ((normalizeQuery parse render opts sql1).error ≠ none →
        (normalizeQuery parse render opts sql2).error = none →
        (compareQueries parse render opts sql1 sql2).isEquivalent = false ∧
        (compareQueries parse render opts sql1 sql2).error2 = none ∧
        (compareQueries parse render opts sql1 sql2).error1 ≠ none) := by
  have h1 := normalizeQuery_truthyS_error parse render opts sql1
  have h2 := normalizeQuery_truthyS_error parse render opts sql2
  have hiff : (compareQueries parse render opts sql1 sql2).isEquivalent = true ↔
      ((normalizeQuery parse render opts sql1).error = none ∧
       (normalizeQuery parse render opts sql2).error = none ∧
       (normalizeQuery parse render opts sql1).normalized =
         (normalizeQuery parse render opts sql2).normalized) := by
    have hb : ∀ (o : Option String), o.isSome = false ↔ o = none := fun o => by
      cases o <;> simp
    simp only [compareQueries, Bool.and_eq_true, Bool.not_eq_true', beq_iff_eq, h1, h2, hb]
    tauto
  refine ⟨hiff, rfl, rfl, ?_, ?_⟩
  · intro he1 he2
    refine ⟨?_, he1, he2⟩
    cases hc : (compareQueries parse render opts sql1 sql2).isEquivalent
    · rfl
    · exact absurd (hiff.mp hc).2.1 he2
  · intro he1 he2
    refine ⟨?_, he2, he1⟩
    cases hc : (compareQueries parse render opts sql1 sql2).isEquivalent
    · rfl
    · exact absurd (hiff.mp hc).1 he1

/-- Witness for C1: a concrete parser failing on exactly one side. -/
theorem compareQueries_equiv_iff_witness :
    (compareQueries
        (fun s => if s = "GOOD" then ⟨some (.mk none none none none none none), none⟩
                  else ⟨none, some "parse error"⟩)
        (fun _ => "TEXT") {} "GOOD" "BAD").isEquivalent = false ∧
    (compareQueries
        (fun s => if s = "GOOD" then ⟨some (.mk none none none none none none), none⟩
                  else ⟨none, some "parse error"⟩)
        (fun _ => "TEXT") {} "GOOD" "BAD").error1 = none ∧
    (compareQueries
        (fun s => if s = "GOOD" then ⟨some (.mk none none none none none none), none⟩
                  else ⟨none, some "parse error"⟩)
        (fun _ => "TEXT") {} "GOOD" "BAD").error2 ≠ none := by
  have h := (compareQueries_equiv_iff
      (fun s => if s = "GOOD" then ⟨some (.mk none none none none none none), none⟩
                else ⟨none, some "parse error"⟩)
      (fun _ => "TEXT") {} "GOOD" "BAD").2.2.2.1
  exact h (by simp [normalizeQuery, truthyS]) (by simp [normalizeQuery, truthyS])

/-- **C5.** In predicate canonicalization, a binary comparison with
operator `=` has its operands swapped exactly when the left sort key is
strictly greater than the right sort key; for the comparison operators
`<`, `>`, `<=`, `>=`, `!=`, `<>` the operands are never swapped. -/
theorem sortWhere_swap_only_eq (op : String) (l r : Expr) :
    (sortWhereConditionsInPlace (.binary_expr "=" l r) =
      (if jsLtB (generateSortKeyE r) (generateSortKeyE l) then Expr.binary_expr "=" r l
       else Expr.binary_expr "=" l r))
    ∧ (op = "<" ∨ op = ">" ∨ op = "<=" ∨ op = ">=" ∨ op = "!=" ∨ op = "<>" →
        sortWhereConditionsInPlace (.binary_expr op l r) = .binary_expr op l r) := by
  constructor
  · rw [sortWhere_cmp "=" l r (by decide) (by decide)]
    have hc : commutativeOps.contains (jsToUpper "=") = true := by decide
    rw [if_pos hc]
    by_cases h : jsLtB (generateSortKeyE r) (generateSortKeyE l) = true
    · simp [h]
    · simp only [Bool.not_eq_true] at h
      simp [h]
  · rintro (rfl | rfl | rfl | rfl | rfl | rfl) <;>
      rw [sortWhere_cmp _ l r (by decide) (by decide)] <;>
      by_cases h : jsLtB (generateSortKeyE r) (generateSortKeyE l) = true <;>
      simp [h]

/-- Witness for C5: with `leftKey > rightKey`, `=` swaps its operands while
`<` on the same operands is left untouched. -/
theorem sortWhere_swap_only_eq_witness :
    sortWhereConditionsInPlace
        (.binary_expr "=" (.column_ref (some "t") "z") (.column_ref (some "t") "a"))
      = .binary_expr "=" (.column_ref (some "t") "a") (.column_ref (some "t") "z")
    ∧ sortWhereConditionsInPlace
        (.binary_expr "<" (.column_ref (some "t") "z") (.column_ref (some "t") "a"))
      = .binary_expr "<" (.column_ref (some "t") "z") (.column_ref (some "t") "a") := by
  constructor
  · rw [(sortWhere_swap_only_eq "<" (.column_ref (some "t") "z") (.column_ref (some "t") "a")).1]
    rw [if_pos (by decide)]
  · exact (sortWhere_swap_only_eq "<" (.column_ref (some "t") "z")
      (.column_ref (some "t") "a")).2 (Or.inl rfl)

/-- **C6 (counterexample).** The claim says literal sort keys are
lowercased (strings additionally quote-wrapped); but the key of the string
literal `'A'` is the non-lowercased quote-wrapped value. -/
theorem generateSortKey_string_not_lowercased :
    generateSortKeyE (.single_quote_string "A") = "\"A\""
    ∧ "\"A\"" ≠ jsToLower "\"A\""
    ∧ jsToLower "\"A\"" = "\"a\"" := by
  refine ⟨rfl, ?_, by decide⟩
  intro h
  have : "\"A\"" = "\"a\"" := h.trans (by decide)
  simp at this

/-- **C6 (amended).** The sort key of a number literal is its stringified
value, and the sort key of a (single-quoted) string literal is its value
wrapped in double quotes, taken verbatim without lowercasing. -/
theorem generateSortKey_literals :
    (∀ v : Int, generateSortKeyE (.number v) = toString v)
    ∧ (∀ s : String, generateSortKeyE (.single_quote_string s) = "\"" ++ s ++ "\"") :=
  ⟨fun _ => rfl, fun _ => rfl⟩

/-- **C7.** `sortSelectColumns` returns the bare `'*'` marker unchanged;
on a list it keeps all star entries first in their original relative order,
followed by the non-star entries stably sorted ascending by the sort key of
their expression (permutation of the non-star entries, sorted by key, and,
for every key value, the entries carrying that key stay in their original
relative order). -/
theorem sortSelectColumns_spec (entries : List ColumnEntry) :
    sortSelectColumns (some .all) = some .all
    ∧ ∃ rest,
        sortSelectColumns (some (.list entries))
          = some (.list (entries.filter isStarEntry ++ rest))
        ∧ List.Perm rest (entries.filter fun x => !isStarEntry x)
        ∧ List.Sorted columnKeyLe rest
        ∧ ∀ k : String,
            rest.filter (fun x => generateSortKey x.expr == k)
              = (entries.filter fun x => !isStarEntry x).filter
                  (fun x => generateSortKey x.expr == k) := by
  refine ⟨rfl, (entries.filter (fun x => !isStarEntry x)).insertionSort columnKeyLe,
    rfl, List.perm_insertionSort _ _, List.sorted_insertionSort _ _, fun k => ?_⟩
  exact insertionSort_filter_key columnKeyLe (fun ce => generateSortKey ce.expr)
    (fun a b h => by
      unfold columnKeyLe
      rw [show generateSortKey a.expr = generateSortKey b.expr from h]
      exact jsLeB_refl _) _ k

theorem joinKey_sortJoinOn (t : TableRef) : joinKey (sortJoinOn t) = joinKey t := by
  cases t with
  | mk table asN join onc => cases onc <;> rfl

/-- **C8.** `sortJoinClauses` never moves the first (anchor) FROM entry;
the remaining join entries end up sorted ascending by the lowercased key
`"<joinType>.<tableName>"` (as a permutation of the original joins with
each join's ON predicate canonicalized), stably; and the per-join ON
canonicalization is exactly the WHERE-canonicalization rule
(`sortWhereConditions`). -/
theorem sortJoinClauses_spec (t : TableRef) (rest : List TableRef) :
    ∃ joins,
      sortJoinClauses (some (t :: rest)) = some (t :: joins)
      ∧ List.Perm joins (rest.map sortJoinOn)
      ∧ List.Sorted joinKeyLe joins
      ∧ (∀ k : String, joins.filter (fun x => joinKey x == k)
          = (rest.map sortJoinOn).filter (fun x => joinKey x == k))
      ∧ ∀ x : TableRef, sortJoinOn x
          = TableRef.mk x.table x.asName x.join (sortWhereConditions x.onc) := by
  have hfn : ∀ x : TableRef, sortJoinOn x
      = TableRef.mk x.table x.asName x.join (sortWhereConditions x.onc) := by
    intro x
    cases x with
    | mk table asN join onc => cases onc <;> rfl
  cases rest with
  | nil =>
    exact ⟨[], by simp [sortJoinClauses], List.Perm.nil, List.sorted_nil, by simp, hfn⟩
  | cons r2 rs =>
    refine ⟨((r2 :: rs).insertionSort joinKeyLe).map sortJoinOn, ?_, ?_, ?_, ?_, hfn⟩
    · simp [sortJoinClauses]
    · exact ((List.perm_insertionSort joinKeyLe (r2 :: rs)).map sortJoinOn)
    · exact List.Pairwise.map sortJoinOn
        (fun a b h => by
          unfold joinKeyLe
          rw [joinKey_sortJoinOn, joinKey_sortJoinOn]
          exact h)
        (List.sorted_insertionSort joinKeyLe (r2 :: rs))
    · intro k
      rw [List.filter_map, List.filter_map]
      have hpe : ((fun x => joinKey x == k) ∘ sortJoinOn)
          = (fun x : TableRef => joinKey x == k) := by
        funext x
        simp [Function.comp, joinKey_sortJoinOn]
      rw [hpe]
      congr 1
      exact insertionSort_filter_key joinKeyLe joinKey
        (fun a b h => by
          unfold joinKeyLe
          rw [show joinKey a = joinKey b from h]
          exact jsLeB_refl _) _ k

/-- **C10.** The implicit select-alias pass keeps every entry's expression;
an entry with a (truthy) alias is untouched; an alias-less entry whose
expression is a bare column reference receives the column's own name; an
alias-less entry whose expression is a double-quoted string receives that
string's value; every other alias-less entry keeps its (absent) alias.
The pass itself maps this entry transformation over an array select list. -/
theorem stdSelectAliasEntry_spec (e : Option Expr) (a : Option String)
    (entries : List ColumnEntry) :
    (stdSelectAliasEntry (.mk e a)).expr = e
    ∧ (truthyS a = true → (stdSelectAliasEntry (.mk e a)).asName = a)
    ∧ (truthyS a = false → ∀ t c, e = some (.column_ref t c) →
        (stdSelectAliasEntry (.mk e a)).asName = some c)
    ∧ (truthyS a = false → ∀ v, e = some (.double_quote_string v) →
        (stdSelectAliasEntry (.mk e a)).asName = some v)
    ∧ (truthyS a = false →
        (∀ t c, e ≠ some (.column_ref t c)) →
        (∀ v, e ≠ some (.double_quote_string v)) →
        (stdSelectAliasEntry (.mk e a)).asName = a)
    ∧ standardizeSelectAliases (some (.list entries))
        = some (.list (entries.map stdSelectAliasEntry)) := by
  refine ⟨?_, ?_, ?_, ?_, ?_, rfl⟩
  · cases e <;> simp [stdSelectAliasEntry, ColumnEntry.expr] <;> split <;> split <;> rfl
  · intro h
    simp [stdSelectAliasEntry, h, ColumnEntry.asName]
  · rintro h t c rfl
    by_cases hc : truthyS (some c) = true <;>
      simp [stdSelectAliasEntry, h, hc, ColumnEntry.asName]
  · rintro h v rfl
    by_cases hv : truthyS (some v) = true <;>
      simp [stdSelectAliasEntry, h, hv, ColumnEntry.asName]
  · intro h hcol hdqs
    cases e with
    | none => simp [stdSelectAliasEntry, h, ColumnEntry.asName]
    | some e1 =>
      cases e1 <;>
        first
        | exact absurd rfl (hcol _ _)
        | exact absurd rfl (hdqs _)
        | simp [stdSelectAliasEntry, h, ColumnEntry.asName]

/-- Witness for C10: a bare column reference gets its own name as alias, a
double-quoted string gets its value, a function call stays alias-less, and
an existing alias is kept. -/
theorem stdSelectAliasEntry_spec_witness :
    (stdSelectAliasEntry (.mk (some (.column_ref none "cnt")) none)).asName = some "cnt"
    ∧ (stdSelectAliasEntry (.mk (some (.double_quote_string "lbl")) none)).asName = some "lbl"
    ∧ (stdSelectAliasEntry (.mk (some (.func "SUM" [.column_ref none "x"])) none)).asName = none
    ∧ (stdSelectAliasEntry (.mk (some (.column_ref none "cnt")) (some "keep"))).asName
        = some "keep" :=
  ⟨(stdSelectAliasEntry_spec (some (.column_ref none "cnt")) none []).2.2.1 rfl none "cnt" rfl,
   (stdSelectAliasEntry_spec (some (.double_quote_string "lbl")) none []).2.2.2.1 rfl "lbl" rfl,
   (stdSelectAliasEntry_spec (some (.func "SUM" [.column_ref none "x"])) none []).2.2.2.2.1 rfl
     (fun t c h => by simp at h) (fun v h => by simp at h),
   (stdSelectAliasEntry_spec (some (.column_ref none "cnt")) (some "keep") []).2.1 rfl⟩

/-! ## C2: AND/OR chain canonicalization -/

/-- The uppercased top-level operator of a binary node. -/
def Expr.topOperatorUpper : Expr → Option String
  | .binary_expr op _ _ => some (jsToUpper op)
  | _ => none

theorem rebuildConditionTree_isSome {l : List Expr} (h : l ≠ []) (op : String) :
    ∃ t, rebuildConditionTree l op = some t := by
  match l with
  | [] => exact absurd rfl h
  | [c] => exact ⟨c, rfl⟩
  | c :: c2 :: cs =>
    obtain ⟨t, ht⟩ := rebuildConditionTree_isSome (l := c2 :: cs) (by simp) op
    exact ⟨.binary_expr (jsToUpper op) c t, by rw [rebuildConditionTree.eq_def]; simp [ht]⟩

/-- **C2 (amended).** AND-chain (and OR-chain) canonicalization flattens,
recursively canonicalizes, stably sorts by key and rebuilds; consequently
two chains over the same multiset of conjuncts (equivalently: whose
flattened operand lists are permutations of each other, which covers every
re-association and permutation) canonicalize to the identical tree,
provided the canonicalized conjuncts carry pairwise distinct sort keys. -/
theorem sortWhere_perm_invariant (op : String) (e1 e2 : Expr)
    (hop : op = "AND" ∨ op = "OR")
    (h1 : e1.topOperatorUpper = some op) (h2 : e2.topOperatorUpper = some op)
    (hperm : List.Perm (flattenConditions e1 op) (flattenConditions e2 op))
    (hkeys : ((flattenConditions e1 op).map
        (fun x => generateSortKeyE (sortWhereConditionsInPlace x))).Nodup) :
    sortWhereConditionsInPlace e1 = sortWhereConditionsInPlace e2 := by
  set f1 := flattenConditions e1 op with hf1
  set f2 := flattenConditions e2 op with hf2
  set s1 := (f1.map sortWhereConditionsInPlace).insertionSort exprKeyLe with hs1
  set s2 := (f2.map sortWhereConditionsInPlace).insertionSort exprKeyLe with hs2
  -- the two sorted canonicalized operand lists coincide
  have hnodupmap : ((f1.map sortWhereConditionsInPlace).map generateSortKeyE).Nodup := by
    rw [List.map_map]
    exact hkeys
  have hmem1 : ∀ x ∈ s1, x ∈ f1.map sortWhereConditionsInPlace := fun x hx =>
    (List.mem_insertionSort exprKeyLe).1 hx
  have hmem2 : ∀ x ∈ s2, x ∈ f1.map sortWhereConditionsInPlace := fun x hx =>
    ((hperm.map sortWhereConditionsInPlace).mem_iff).2
      ((List.mem_insertionSort exprKeyLe).1 hx)
  have hss : s1 = s2 := by
    refine @List.Perm.eq_of_sorted Expr exprKeyLe s1 s2 ?_ ?_ ?_ ?_
    · intro a b ha hb hab hba
      have hk : generateSortKeyE a = generateSortKeyE b := jsLeB_antisymm hab hba
      exact List.inj_on_of_nodup_map hnodupmap (hmem1 a ha) (hmem2 b hb) hk
    · exact List.sorted_insertionSort exprKeyLe _
    · exact List.sorted_insertionSort exprKeyLe _
    · exact (List.perm_insertionSort exprKeyLe _).trans
        ((hperm.map sortWhereConditionsInPlace).trans
          (List.perm_insertionSort exprKeyLe _).symm)
  have hne2 : s2 ≠ [] := by
    intro hc
    have hlen := congrArg List.length hc
    simp only [hs2, List.length_insertionSort, List.length_map, List.length_nil] at hlen
    exact flattenConditions_ne_nil e2 op (List.length_eq_zero.mp hlen)
  -- unfold both sides with the AND (resp. OR) equation
  rcases hop with rfl | rfl
  · obtain ⟨t, ht⟩ := rebuildConditionTree_isSome hne2 "AND"
    obtain ⟨op1, l1, r1, rfl, hup1⟩ : ∃ o a b, e1 = .binary_expr o a b ∧ jsToUpper o = "AND" := by
      cases e1 <;> simp_all [Expr.topOperatorUpper]
    obtain ⟨op2, l2, r2, rfl, hup2⟩ : ∃ o a b, e2 = .binary_expr o a b ∧ jsToUpper o = "AND" := by
      cases e2 <;> simp_all [Expr.topOperatorUpper]
    rw [sortWhere_and op1 l1 r1 hup1, sortWhere_and op2 l2 r2 hup2]
    rw [← hf1, ← hf2, ← hs1, ← hs2, hss, ht]
  · obtain ⟨t, ht⟩ := rebuildConditionTree_isSome hne2 "OR"
    obtain ⟨op1, l1, r1, rfl, hup1⟩ : ∃ o a b, e1 = .binary_expr o a b ∧ jsToUpper o = "OR" := by
      cases e1 <;> simp_all [Expr.topOperatorUpper]
    obtain ⟨op2, l2, r2, rfl, hup2⟩ : ∃ o a b, e2 = .binary_expr o a b ∧ jsToUpper o = "OR" := by
      cases e2 <;> simp_all [Expr.topOperatorUpper]
    rw [sortWhere_or op1 l1 r1 (by rw [hup1]; decide) hup1,
      sortWhere_or op2 l2 r2 (by rw [hup2]; decide) hup2]
    rw [← hf1, ← hf2, ← hs1, ← hs2, hss, ht]

/-- **C2 (counterexample to the unrestricted claim).** Two AND-chains over
the same multiset of conjuncts (their flattened operand lists are
permutations of each other) whose two conjuncts have the *same* sort key:
each chain canonicalizes to itself, so the two canonical trees differ. -/
theorem sortWhere_perm_invariant_counterexample :
    List.Perm
      (flattenConditions (.binary_expr "AND"
        (.column_ref (some "A") "b") (.column_ref (some "a") "B")) "AND")
      (flattenConditions (.binary_expr "AND"
        (.column_ref (some "a") "B") (.column_ref (some "A") "b")) "AND")
    ∧ generateSortKeyE (.column_ref (some "A") "b")
        = generateSortKeyE (.column_ref (some "a") "B")
    ∧ sortWhereConditionsInPlace (.binary_expr "AND"
        (.column_ref (some "A") "b") (.column_ref (some "a") "B"))
      = .binary_expr "AND" (.column_ref (some "A") "b") (.column_ref (some "a") "B")
    ∧ sortWhereConditionsInPlace (.binary_expr "AND"
        (.column_ref (some "a") "B") (.column_ref (some "A") "b"))
      = .binary_expr "AND" (.column_ref (some "a") "B") (.column_ref (some "A") "b")
    ∧ sortWhereConditionsInPlace (.binary_expr "AND"
        (.column_ref (some "A") "b") (.column_ref (some "a") "B"))
      ≠ sortWhereConditionsInPlace (.binary_expr "AND"
        (.column_ref (some "a") "B") (.column_ref (some "A") "b")) := by
  have hca : sortWhereConditionsInPlace (.binary_expr "AND"
      (.column_ref (some "A") "b") (.column_ref (some "a") "B"))
      = .binary_expr "AND" (.column_ref (some "A") "b") (.column_ref (some "a") "B") := by
    rw [sortWhere_and "AND" _ _ (by decide)]
    simp +decide [flattenConditions, rebuildConditionTree, List.insertionSort,
      List.orderedInsert, exprKeyLe, sortWhere_not_binary, Expr.isBinary]
  have hcb : sortWhereConditionsInPlace (.binary_expr "AND"
      (.column_ref (some "a") "B") (.column_ref (some "A") "b"))
      = .binary_expr "AND" (.column_ref (some "a") "B") (.column_ref (some "A") "b") := by
    rw [sortWhere_and "AND" _ _ (by decide)]
    simp +decide [flattenConditions, rebuildConditionTree, List.insertionSort,
      List.orderedInsert, exprKeyLe, sortWhere_not_binary, Expr.isBinary]
  refine ⟨?_, by decide, hca, hcb, ?_⟩
  · exact List.Perm.swap (Expr.column_ref (some "a") "B") (Expr.column_ref (some "A") "b")
      ([] : List Expr)
  · rw [hca, hcb]
    intro h
    have := (Expr.binary_expr.injEq _ _ _ _ _ _).mp h
    simp at this

/-- Witness for C2 (amended): two permuted two-conjunct AND-chains with
distinct conjunct keys canonicalize identically. -/
theorem sortWhere_perm_invariant_witness :
    sortWhereConditionsInPlace (.binary_expr "AND"
        (.column_ref (some "t") "b") (.column_ref (some "t") "a"))
      = sortWhereConditionsInPlace (.binary_expr "AND"
        (.column_ref (some "t") "a") (.column_ref (some "t") "b")) := by
  apply sortWhere_perm_invariant "AND"
    (.binary_expr "AND" (.column_ref (some "t") "b") (.column_ref (some "t") "a"))
    (.binary_expr "AND" (.column_ref (some "t") "a") (.column_ref (some "t") "b"))
    (Or.inl rfl) rfl rfl
  · exact List.Perm.swap (Expr.column_ref (some "t") "a") (Expr.column_ref (some "t") "b")
      ([] : List Expr)
  · have h1 : sortWhereConditionsInPlace (Expr.column_ref (some "t") "b")
        = .column_ref (some "t") "b" := sortWhere_not_binary rfl
    have h2 : sortWhereConditionsInPlace (Expr.column_ref (some "t") "a")
        = .column_ref (some "t") "a" := sortWhere_not_binary rfl
    show ((flattenConditions _ "AND").map
        (fun x => generateSortKeyE (sortWhereConditionsInPlace x))).Nodup
    rw [show flattenConditions (.binary_expr "AND"
        (.column_ref (some "t") "b") (.column_ref (some "t") "a")) "AND"
      = [.column_ref (some "t") "b", .column_ref (some "t") "a"] from rfl]
    simp only [List.map_cons, List.map_nil, h1, h2]
    decide

/-! ## C3: implicit qualification

`exprQuals` collects, in traversal order, the qualifier slot of every
scope-local column reference of an expression (subqueries are their own
scope and contribute nothing); `queryQuals` does so for all clause
positions that `resolveAstAliases` visits.  `resolveQualStep` is the action
of the resolver on one qualifier slot. -/

mutual

def exprQuals : Expr → List (Option String)
  | .column_ref t _ => [t]
  | .binary_expr _ l r => exprQuals l ++ exprQuals r
  | .func _ args => exprListQuals args
  | .aggr_func _ args => exprListQuals args
  | .case_of arms => armListQuals arms
  | .expr_list value => exprListQuals value
  | _ => []

def optExprQuals : Option Expr → List (Option String)
  | none => []
  | some e => exprQuals e

def exprListQuals : List Expr → List (Option String)
  | [] => []
  | e :: es => exprQuals e ++ exprListQuals es

def armQuals : CaseArm → List (Option String)
  | .mk c r => optExprQuals c ++ optExprQuals r

def armListQuals : List CaseArm → List (Option String)
  | [] => []
  | a :: as_ => armQuals a ++ armListQuals as_

end

def columnsQuals : Option Columns → List (Option String)
  | some (.list entries) => entries.foldr (fun ce acc => optExprQuals ce.expr ++ acc) []
  | _ => []

def fromQuals : Option (List TableRef) → List (Option String)
  | none => []
  | some ts => ts.foldr (fun t acc => optExprQuals t.onc ++ acc) []

def groupbyQuals : Option (List Expr) → List (Option String)
  | none => []
  | some es => exprListQuals es

def orderbyQuals : Option (List OrderEntry) → List (Option String)
  | none => []
  | some os => os.foldr (fun o acc => exprQuals o.expr ++ acc) []

/-- All scope-local qualifier slots of a query, in the order
`resolveAstAliases` visits them: select list, FROM ON conditions, WHERE,
GROUP BY, HAVING, ORDER BY. -/
def queryQuals (q : Query) : List (Option String) :=
  columnsQuals q.columns ++ fromQuals q.from_ ++ optExprQuals q.where_ ++
    groupbyQuals q.groupby ++ optExprQuals q.having ++ orderbyQuals q.orderby

/-- The action of `resolveExpressionAliasesInPlace` on one qualifier slot:
a truthy qualifier is rewritten through the alias map on a hit and kept on
a miss; an absent/empty qualifier receives the (truthy) implicit table. -/
def resolveQualStep (amap : AliasMap) (impl : Option String)
    (t : Option String) : Option String :=
  if truthyS t then
    match amGet amap (normalizeTableName t) with
    | some v => some v
    | none => t
  else if truthyS impl then impl
  else t

/-- The implicit table computed by `resolveAstAliases`. -/
def implicitOf (q : Query) : Option String := implicitFromList q.from_

mutual

theorem exprQuals_resolve (amap : AliasMap) (impl : Option String) :
    ∀ e : Expr, exprQuals (resolveExpressionAliasesInPlace amap impl e)
      = (exprQuals e).map (resolveQualStep amap impl)
  | .column_ref t c => by
    rw [resolveExpressionAliasesInPlace]
    by_cases ht : truthyS t = true
    · rw [if_pos ht]
      cases hg : amGet amap (normalizeTableName t) <;>
        simp [exprQuals, resolveQualStep, ht, hg]
    · rw [if_neg (by simp [ht])]
      by_cases hi : truthyS impl = true
      · rw [if_pos hi]
        simp [exprQuals, resolveQualStep, ht, hi]
      · rw [if_neg (by simp [hi])]
        simp [exprQuals, resolveQualStep, ht, hi]
  | .binary_expr op l r => by
    rw [resolveExpressionAliasesInPlace]
    simp only [exprQuals, List.map_append,
      exprQuals_resolve amap impl l, exprQuals_resolve amap impl r]
  | .func n args => by
    rw [resolveExpressionAliasesInPlace]
    simp only [exprQuals, exprListQuals_resolve amap impl args]
  | .aggr_func n args => by
    rw [resolveExpressionAliasesInPlace]
    simp only [exprQuals, exprListQuals_resolve amap impl args]
  | .case_of arms => by
    rw [resolveExpressionAliasesInPlace]
    simp only [exprQuals, armListQuals_resolve amap impl arms]
  | .expr_list value => by
    rw [resolveExpressionAliasesInPlace]
    simp only [exprQuals, exprListQuals_resolve amap impl value]
  | .subquery ast => by
    simp [resolveExpressionAliasesInPlace, exprQuals]
  | .number v => by
    simp [resolveExpressionAliasesInPlace, exprQuals]
  | .single_quote_string v => by
    simp [resolveExpressionAliasesInPlace, exprQuals]
  | .double_quote_string v => by
    simp [resolveExpressionAliasesInPlace, exprQuals]
  | .star => by
    simp [resolveExpressionAliasesInPlace, exprQuals]
  | .unknown raw => by
    simp [resolveExpressionAliasesInPlace, exprQuals]

theorem optExprQuals_resolve (amap : AliasMap) (impl : Option String) :
    ∀ o : Option Expr, optExprQuals (resolveOptExpr amap impl o)
      = (optExprQuals o).map (resolveQualStep amap impl)
  | none => by rw [resolveOptExpr]; simp [optExprQuals]
  | some e => by
    rw [resolveOptExpr]
    simp only [optExprQuals, exprQuals_resolve amap impl e]

theorem exprListQuals_resolve (amap : AliasMap) (impl : Option String) :
    ∀ es : List Expr, exprListQuals (resolveExprList amap impl es)
      = (exprListQuals es).map (resolveQualStep amap impl)
  | [] => by rw [resolveExprList]; simp [exprListQuals]
  | e :: es => by
    rw [resolveExprList]
    simp only [exprListQuals, List.map_append,
      exprQuals_resolve amap impl e, exprListQuals_resolve amap impl es]

theorem armQuals_resolve (amap : AliasMap) (impl : Option String) :
    ∀ a : CaseArm, armQuals (resolveArm amap impl a)
      = (armQuals a).map (resolveQualStep amap impl)
  | .mk c r => by
    rw [resolveArm]
    simp only [armQuals, List.map_append,
      optExprQuals_resolve amap impl c, optExprQuals_resolve amap impl r]

theorem armListQuals_resolve (amap : AliasMap) (impl : Option String) :
    ∀ as_ : List CaseArm, armListQuals (resolveArmList amap impl as_)
      = (armListQuals as_).map (resolveQualStep amap impl)
  | [] => by rw [resolveArmList]; simp [armListQuals]
  | a :: as_ => by
    rw [resolveArmList]
    simp only [armListQuals, List.map_append,
      armQuals_resolve amap impl a, armListQuals_resolve amap impl as_]

end

theorem columnEntryListQuals_resolve (amap : AliasMap) (impl : Option String)
    (entries : List ColumnEntry) :
    (resolveColumnEntryList amap impl entries).foldr
        (fun ce acc => optExprQuals ce.expr ++ acc) []
      = (entries.foldr (fun ce acc => optExprQuals ce.expr ++ acc) []).map
          (resolveQualStep amap impl) := by
  induction entries with
  | nil => rw [resolveColumnEntryList]; simp
  | cons ce rest ih =>
    cases ce with
    | mk e a =>
      rw [resolveColumnEntryList]
      simp only [List.foldr_cons, List.map_append, ih, ColumnEntry.centryExpr_mk,
        optExprQuals_resolve amap impl e]

theorem tableRefListQuals_resolve (amap : AliasMap) (impl : Option String)
    (ts : List TableRef) :
    (resolveTableRefList amap impl ts).foldr
        (fun t acc => optExprQuals t.onc ++ acc) []
      = (ts.foldr (fun t acc => optExprQuals t.onc ++ acc) []).map
          (resolveQualStep amap impl) := by
  induction ts with
  | nil => rw [resolveTableRefList]; simp
  | cons t rest ih =>
    cases t with
    | mk table asN join onc =>
      rw [resolveTableRefList]
      simp only [List.foldr_cons, List.map_append, ih, TableRef.onc_mk,
        optExprQuals_resolve amap impl onc]

theorem orderEntryListQuals_resolve (amap : AliasMap) (impl : Option String)
    (os : List OrderEntry) :
    (resolveOrderEntryList amap impl os).foldr
        (fun o acc => exprQuals o.expr ++ acc) []
      = (os.foldr (fun o acc => exprQuals o.expr ++ acc) []).map
          (resolveQualStep amap impl) := by
  induction os with
  | nil => rw [resolveOrderEntryList]; simp
  | cons o rest ih =>
    cases o with
    | mk e d =>
      rw [resolveOrderEntryList]
      simp only [List.foldr_cons, List.map_append, ih, OrderEntry.oentryExpr_mk,
        exprQuals_resolve amap impl e]

theorem columnsQuals_resolveField (amap : AliasMap) (impl : Option String)
    (cols : Option Columns) :
    columnsQuals (resolveColumnsField amap impl cols)
      = (columnsQuals cols).map (resolveQualStep amap impl) := by
  cases cols with
  | none => simp [columnsQuals, resolveColumnsField]
  | some c =>
    cases c with
    | all => simp [columnsQuals, resolveColumnsField]
    | list entries =>
      rw [resolveColumnsField]
      simpa [columnsQuals] using columnEntryListQuals_resolve amap impl entries

theorem fromQuals_resolveField (amap : AliasMap) (impl : Option String)
    (frm : Option (List TableRef)) :
    fromQuals (resolveFromField amap impl frm)
      = (fromQuals frm).map (resolveQualStep amap impl) := by
  cases frm with
  | none => simp [fromQuals, resolveFromField]
  | some ts =>
    rw [resolveFromField]
    simpa [fromQuals] using tableRefListQuals_resolve amap impl ts

theorem groupbyQuals_resolveField (amap : AliasMap) (impl : Option String)
    (gb : Option (List Expr)) :
    groupbyQuals (resolveGroupbyField amap impl gb)
      = (groupbyQuals gb).map (resolveQualStep amap impl) := by
  cases gb with
  | none => simp [groupbyQuals, resolveGroupbyField]
  | some es =>
    rw [resolveGroupbyField]
    simpa [groupbyQuals] using exprListQuals_resolve amap impl es

theorem orderbyQuals_resolveField (amap : AliasMap) (impl : Option String)
    (ob : Option (List OrderEntry)) :
    orderbyQuals (resolveOrderbyField amap impl ob)
      = (orderbyQuals ob).map (resolveQualStep amap impl) := by
  cases ob with
  | none => simp [orderbyQuals, resolveOrderbyField]
  | some os =>
    rw [resolveOrderbyField]
    simpa [orderbyQuals] using orderEntryListQuals_resolve amap impl os

/-- The qualifier slots of a resolved query are exactly the original slots
mapped through `resolveQualStep` with the query's implicit table. -/
theorem queryQuals_resolveAst (q : Query) (amap : AliasMap) :
    queryQuals (resolveAstAliases q amap)
      = (queryQuals q).map (resolveQualStep amap (implicitOf q)) := by
  cases q with
  | mk cols frm wh gb hv ob =>
    rw [resolveAstAliases]
    simp only [queryQuals, implicitOf, Query.columns_mk, Query.from_mk, Query.where_mk,
      Query.groupby_mk, Query.having_mk, Query.orderby_mk, List.map_append,
      columnsQuals_resolveField, fromQuals_resolveField, groupbyQuals_resolveField,
      orderbyQuals_resolveField, optExprQuals_resolve]

theorem truthyS_some_iff (s : String) : truthyS (some s) = true ↔ s ≠ "" := by
  constructor
  · intro h hc
    subst hc
    simp [truthyS] at h
  · intro h
    simp only [truthyS, Bool.not_eq_true']
    cases hc : s.data.isEmpty
    · rfl
    · exact absurd (String.ext ((List.isEmpty_iff.mp hc).trans rfl)) h

/-- **C3 (amended).** If FROM contains exactly one named table reference
whose canonical (lowercased, quote-stripped) name is nonempty, alias
resolution assigns that canonical name as the qualifier of every
unqualified column reference in every clause position (select list, ON,
WHERE, GROUP BY, HAVING, ORDER BY), while qualified references are
rewritten through the alias map; if FROM contains more than one table
reference, unqualified column references are left unqualified. -/
theorem resolveAstAliases_implicit_qualification (q : Query) :
    (∀ t : TableRef, q.from_ = some [t] → truthyS t.table = true →
      normalizeTableName t.table ≠ "" →
      queryQuals (resolveAstAliases q (buildAliasMap q))
        = (queryQuals q).map (fun o =>
            if truthyS o then
              match amGet (buildAliasMap q) (normalizeTableName o) with
              | some v => some v
              | none => o
            else some (normalizeTableName t.table)))
    ∧ (∀ ts : List TableRef, q.from_ = some ts → 2 ≤ ts.length →
      queryQuals (resolveAstAliases q (buildAliasMap q))
        = (queryQuals q).map (fun o =>
            if truthyS o then
              match amGet (buildAliasMap q) (normalizeTableName o) with
              | some v => some v
              | none => o
            else o)) := by
  constructor
  · intro t hfrom htruthy hcanon
    rw [queryQuals_resolveAst]
    have himpl : implicitOf q = some (normalizeTableName t.table) := by
      rw [implicitOf, hfrom, implicitFromList, if_pos htruthy]
    rw [himpl]
    have hfun : resolveQualStep (buildAliasMap q) (some (normalizeTableName t.table))
        = (fun o : Option String =>
            if truthyS o then
              match amGet (buildAliasMap q) (normalizeTableName o) with
              | some v => some v
              | none => o
            else some (normalizeTableName t.table)) := by
      funext o
      rw [resolveQualStep]
      by_cases ho : truthyS o = true
      · simp [ho]
      · simp only [ho, Bool.false_eq_true, if_false]
        rw [if_pos ((truthyS_some_iff _).mpr hcanon)]
    rw [hfun]
  · intro ts hfrom hlen
    rw [queryQuals_resolveAst]
    have himpl : implicitOf q = none := by
      rw [implicitOf, hfrom]
      match ts, hlen with
      | t1 :: t2 :: rest, _ => rw [implicitFromList.eq_def]
    rw [himpl]
    have hfun : resolveQualStep (buildAliasMap q) none
        = (fun o : Option String =>
            if truthyS o then
              match amGet (buildAliasMap q) (normalizeTableName o) with
              | some v => some v
              | none => o
            else o) := by
      funext o
      rw [resolveQualStep]
      by_cases ho : truthyS o = true
      · simp [ho]
      · simp [ho, truthyS]
    rw [hfun]

/-- **C3 (counterexample to the unamended claim).** A FROM clause with
exactly one named table reference whose name is a single quote character:
the canonical name is the empty string, and the unqualified WHERE column
reference is left unqualified instead of receiving the canonical name as
qualifier. -/
theorem resolveAstAliases_implicit_qualification_counterexample :
    truthyS (TableRef.mk (some "\"") none none none).table = true
    ∧ normalizeTableName (TableRef.mk (some "\"") none none none).table = ""
    ∧ (resolveAstAliases
        (Query.mk none (some [TableRef.mk (some "\"") none none none])
          (some (.column_ref none "c")) none none none)
        (buildAliasMap (Query.mk none (some [TableRef.mk (some "\"") none none none])
          (some (.column_ref none "c")) none none none))).where_
      = some (.column_ref none "c") := by
  refine ⟨by decide, by decide, ?_⟩
  rw [resolveAstAliases]
  simp +decide [resolveOptExpr, resolveExpressionAliasesInPlace, implicitFromList,
    truthyS, normalizeTableName, Query.where_mk]

/-- Witness for C3: a single-table query gets its unqualified WHERE column
qualified with the canonical table name; a two-table query keeps it
unqualified. -/
theorem resolveAstAliases_implicit_qualification_witness :
    queryQuals (resolveAstAliases
        (Query.mk none (some [TableRef.mk (some "Orders") (some "o") none none])
          (some (.column_ref none "id")) none none none)
        (buildAliasMap (Query.mk none
          (some [TableRef.mk (some "Orders") (some "o") none none])
          (some (.column_ref none "id")) none none none)))
      = [some "orders"]
    ∧ queryQuals (resolveAstAliases
        (Query.mk none (some [TableRef.mk (some "Orders") none none none,
            TableRef.mk (some "Customers") none (some "INNER JOIN") none])
          (some (.column_ref none "id")) none none none)
        (buildAliasMap (Query.mk none
          (some [TableRef.mk (some "Orders") none none none,
            TableRef.mk (some "Customers") none (some "INNER JOIN") none])
          (some (.column_ref none "id")) none none none)))
      = [none] := by
  constructor
  · have h := (resolveAstAliases_implicit_qualification
        (Query.mk none (some [TableRef.mk (some "Orders") (some "o") none none])
          (some (.column_ref none "id")) none none none)).1
      (TableRef.mk (some "Orders") (some "o") none none) rfl (by decide) (by decide)
    rw [h]
    simp +decide [queryQuals, columnsQuals, fromQuals, optExprQuals, exprQuals,
      groupbyQuals, orderbyQuals, truthyS, normalizeTableName]
  · have h := (resolveAstAliases_implicit_qualification
        (Query.mk none (some [TableRef.mk (some "Orders") none none none,
            TableRef.mk (some "Customers") none (some "INNER JOIN") none])
          (some (.column_ref none "id")) none none none)).2
      [TableRef.mk (some "Orders") none none none,
       TableRef.mk (some "Customers") none (some "INNER JOIN") none] rfl (by decide)
    rw [h]
    simp +decide [queryQuals, columnsQuals, fromQuals, optExprQuals, exprQuals,
      groupbyQuals, orderbyQuals, truthyS]

/-! ## C4: idempotence

The heart of the claim is that the AST transformation
(`transformAst`) is idempotent.  This section builds that up:
first idempotence of the predicate canonicalizer, then of each sort,
then of alias resolution on already-resolved trees, and finally the
pipeline. -/

theorem flattenConditions_binary (o : String) (l r : Expr) (op : String) :
    flattenConditions (.binary_expr o l r) op =
      if jsToUpper o = op then flattenConditions l op ++ flattenConditions r op
      else [.binary_expr o l r] := rfl

theorem flattenConditions_not_binary {e : Expr} (h : e.isBinary = false) (op : String) :
    flattenConditions e op = [e] := by
  cases e <;> first | rfl | simp [Expr.isBinary] at h

theorem rebuildConditionTree_cons2 (c c2 : Expr) (cs : List Expr) (op : String) :
    rebuildConditionTree (c :: c2 :: cs) op =
      match rebuildConditionTree (c2 :: cs) op with
      | some rest => some (.binary_expr (jsToUpper op) c rest)
      | none => some c := rfl

theorem topOperatorUpper_of_not_binary {e : Expr} (h : e.isBinary = false) :
    e.topOperatorUpper = none := by
  cases e <;> first | rfl | simp [Expr.isBinary] at h

theorem flatten_eq_self_of_not_top {e : Expr} {op : String}
    (h : e.topOperatorUpper ≠ some op) : flattenConditions e op = [e] := by
  cases e with
  | binary_expr o l r =>
    rw [flattenConditions_binary, if_neg]
    intro hc
    exact h (by simp [Expr.topOperatorUpper, hc])
  | _ => rfl

theorem flatten_mem_not_top {e : Expr} {op : String} :
    ∀ x ∈ flattenConditions e op, x.topOperatorUpper ≠ some op := by
  intro x hx
  by_cases hb : e.isBinary = true
  · obtain ⟨o, l, r, rfl⟩ : ∃ o l r, e = .binary_expr o l r := by
      cases e
      case binary_expr o l r => exact ⟨o, l, r, rfl⟩
      all_goals simp [Expr.isBinary] at hb
    rw [flattenConditions_binary] at hx
    by_cases ho : jsToUpper o = op
    · rw [if_pos ho] at hx
      rcases List.mem_append.1 hx with h | h
      · exact flatten_mem_not_top x h
      · exact flatten_mem_not_top x h
    · rw [if_neg ho] at hx
      simp only [List.mem_singleton] at hx
      subst hx
      simp [Expr.topOperatorUpper, ho]
  · rw [flattenConditions_not_binary (by simpa using hb)] at hx
    simp only [List.mem_singleton] at hx
    subst hx
    rw [topOperatorUpper_of_not_binary (by simpa using hb)]
    simp
termination_by sizeOf e

theorem flatten_rebuild {op : String} (hopU : jsToUpper op = op) :
    ∀ (l : List Expr), (∀ x ∈ l, x.topOperatorUpper ≠ some op) →
      ∀ t, rebuildConditionTree l op = some t → flattenConditions t op = l
  | [], _, t, ht => by simp [rebuildConditionTree] at ht
  | [c], h, t, ht => by
    rw [show rebuildConditionTree [c] op = some c from rfl] at ht
    cases ht
    exact flatten_eq_self_of_not_top (h c (List.mem_singleton_self c))
  | c :: c2 :: cs, h, t, ht => by
    rw [rebuildConditionTree_cons2] at ht
    cases hrec : rebuildConditionTree (c2 :: cs) op with
    | none =>
      obtain ⟨t2, ht2⟩ := rebuildConditionTree_isSome (l := c2 :: cs) (by simp) op
      rw [ht2] at hrec
      cases hrec
    | some rest =>
      rw [hrec] at ht
      cases ht
      rw [flattenConditions_binary, if_pos (by simp [hopU])]
      rw [flatten_eq_self_of_not_top (h c (List.mem_cons_self c _))]
      rw [flatten_rebuild hopU (c2 :: cs)
        (fun x hx => h x (List.mem_cons_of_mem c hx)) rest hrec]
      rfl

theorem flatten_length_two {e : Expr} {op : String}
    (h : e.topOperatorUpper = some op) : 2 ≤ (flattenConditions e op).length := by
  cases e with
  | binary_expr o l r =>
    have ho : jsToUpper o = op := by simpa [Expr.topOperatorUpper] using h
    rw [flattenConditions_binary, if_pos ho]
    have h1 : 1 ≤ (flattenConditions l op).length :=
      Nat.one_le_iff_ne_zero.mpr (fun hc =>
        flattenConditions_ne_nil l op (List.length_eq_zero.mp hc))
    have h2 : 1 ≤ (flattenConditions r op).length :=
      Nat.one_le_iff_ne_zero.mpr (fun hc =>
        flattenConditions_ne_nil r op (List.length_eq_zero.mp hc))
    simp only [List.length_append]
    omega
  | _ => simp [Expr.topOperatorUpper] at h

theorem rebuild_top_of_two {op : String} {c1 c2 : Expr} {cs : List Expr} {t : Expr}
    (ht : rebuildConditionTree (c1 :: c2 :: cs) op = some t) :
    t.topOperatorUpper = some (jsToUpper (jsToUpper op)) := by
  rw [rebuildConditionTree_cons2] at ht
  cases hrec : rebuildConditionTree (c2 :: cs) op with
  | none =>
    obtain ⟨t2, ht2⟩ := rebuildConditionTree_isSome (l := c2 :: cs) (by simp) op
    rw [ht2] at hrec
    cases hrec
  | some rest =>
    rw [hrec] at ht
    cases ht
    rfl

/-- Canonicalization preserves the top-level (uppercased) operator shape. -/
theorem canon_topOperatorUpper (e : Expr) :
    (sortWhereConditionsInPlace e).topOperatorUpper = e.topOperatorUpper := by
  cases e with
  | binary_expr op l r =>
    by_cases hA : jsToUpper op = "AND"
    · rw [sortWhere_and op l r hA]
      have hlen2 : 2 ≤ (((flattenConditions (.binary_expr op l r) "AND").map
          sortWhereConditionsInPlace).insertionSort exprKeyLe).length := by
        rw [List.length_insertionSort, List.length_map]
        exact flatten_length_two (by simp [Expr.topOperatorUpper, hA])
      cases hs : ((flattenConditions (.binary_expr op l r) "AND").map
          sortWhereConditionsInPlace).insertionSort exprKeyLe with
      | nil => simp [hs] at hlen2
      | cons c1 rest =>
        cases rest with
        | nil => simp [hs] at hlen2
        | cons c2 cs =>
          obtain ⟨t, ht⟩ := rebuildConditionTree_isSome (l := c1 :: c2 :: cs) (by simp) "AND"
          rw [ht]
          rw [rebuild_top_of_two ht]
          simp only [Expr.topOperatorUpper, hA]
          rfl
    · by_cases hO : jsToUpper op = "OR"
      · rw [sortWhere_or op l r hA hO]
        have hlen2 : 2 ≤ (((flattenConditions (.binary_expr op l r) "OR").map
            sortWhereConditionsInPlace).insertionSort exprKeyLe).length := by
          rw [List.length_insertionSort, List.length_map]
          exact flatten_length_two (by simp [Expr.topOperatorUpper, hO])
        cases hs : ((flattenConditions (.binary_expr op l r) "OR").map
            sortWhereConditionsInPlace).insertionSort exprKeyLe with
        | nil => simp [hs] at hlen2
        | cons c1 rest =>
          cases rest with
          | nil => simp [hs] at hlen2
          | cons c2 cs =>
            obtain ⟨t, ht⟩ := rebuildConditionTree_isSome (l := c1 :: c2 :: cs) (by simp) "OR"
            rw [ht]
            rw [rebuild_top_of_two ht]
            simp only [Expr.topOperatorUpper, hO]
            rfl
      · rw [sortWhere_cmp op l r hA hO]
        split
        · split <;> simp [Expr.topOperatorUpper]
        · simp [Expr.topOperatorUpper]
  | _ => exact congrArg Expr.topOperatorUpper (sortWhere_not_binary (by rfl))

theorem map_eq_self_of {α : Type} {f : α → α} :
    ∀ {l : List α}, (∀ x ∈ l, f x = x) → l.map f = l
  | [], _ => rfl
  | x :: xs, h => by
    rw [List.map_cons, h x (List.mem_cons_self x xs),
      map_eq_self_of (fun y hy => h y (List.mem_cons_of_mem x hy))]

theorem jsLtB_asymm {a b : String} (h : jsLtB a b = true) : jsLtB b a = false :=
  charListLt_asymm h

theorem sortWhere_idem_leaf {e : Expr} (h : e.isBinary = false) :
    sortWhereConditionsInPlace (sortWhereConditionsInPlace e)
      = sortWhereConditionsInPlace e := by
  rw [sortWhere_not_binary h, sortWhere_not_binary h]

/-- The predicate canonicalizer is idempotent. -/
theorem sortWhere_idem : ∀ e : Expr,
    sortWhereConditionsInPlace (sortWhereConditionsInPlace e)
      = sortWhereConditionsInPlace e
  | .binary_expr op l r => by
    by_cases hA : jsToUpper op = "AND"
    · rw [sortWhere_and op l r hA]
      have hfix : ∀ x ∈ ((flattenConditions (.binary_expr op l r) "AND").map
          sortWhereConditionsInPlace).insertionSort exprKeyLe,
          sortWhereConditionsInPlace x = x := by
        intro x hx
        obtain ⟨y, hy, rfl⟩ := List.mem_map.1 ((List.mem_insertionSort exprKeyLe).1 hx)
        exact sortWhere_idem y
      have hnot : ∀ x ∈ ((flattenConditions (.binary_expr op l r) "AND").map
          sortWhereConditionsInPlace).insertionSort exprKeyLe,
          x.topOperatorUpper ≠ some "AND" := by
        intro x hx
        obtain ⟨y, hy, rfl⟩ := List.mem_map.1 ((List.mem_insertionSort exprKeyLe).1 hx)
        rw [canon_topOperatorUpper]
        exact flatten_mem_not_top y hy
      have hsorted : List.Sorted exprKeyLe
          (((flattenConditions (.binary_expr op l r) "AND").map
            sortWhereConditionsInPlace).insertionSort exprKeyLe) :=
        List.sorted_insertionSort exprKeyLe _
      have hne : ((flattenConditions (.binary_expr op l r) "AND").map
          sortWhereConditionsInPlace).insertionSort exprKeyLe ≠ [] := by
        intro hc
        have hlen := congrArg List.length hc
        simp only [List.length_insertionSort, List.length_map, List.length_nil] at hlen
        exact flattenConditions_ne_nil _ _ (List.length_eq_zero.mp hlen)
      obtain ⟨t, ht⟩ := rebuildConditionTree_isSome hne "AND"
      simp only [ht]
      cases hl : ((flattenConditions (.binary_expr op l r) "AND").map
          sortWhereConditionsInPlace).insertionSort exprKeyLe with
      | nil =>
        rw [hl] at ht
        simp [rebuildConditionTree] at ht
      | cons c1 rest =>
        cases rest with
        | nil =>
          rw [hl] at ht
          have htc : t = c1 := by
            rw [show rebuildConditionTree [c1] "AND" = some c1 from rfl] at ht
            exact (Option.some.injEq _ _).mp ht.symm
          rw [htc]
          exact hfix c1 (hl ▸ List.mem_singleton_self c1)
        | cons c2 cs =>
          rw [hl] at ht hfix hnot hsorted
          have htop : t.topOperatorUpper = some "AND" := by
            have h2 := rebuild_top_of_two ht
            rwa [show jsToUpper (jsToUpper "AND") = "AND" from rfl] at h2
          obtain ⟨o2, l2, r2, rfl, ho2⟩ : ∃ o2 l2 r2, t = .binary_expr o2 l2 r2
              ∧ jsToUpper o2 = "AND" := by
            cases t
            case binary_expr o2 l2 r2 =>
              exact ⟨o2, l2, r2, rfl, by simpa [Expr.topOperatorUpper] using htop⟩
            all_goals simp [Expr.topOperatorUpper] at htop
          rw [sortWhere_and o2 l2 r2 ho2]
          rw [flatten_rebuild (show jsToUpper "AND" = "AND" from rfl) (c1 :: c2 :: cs)
            hnot _ ht]
          rw [map_eq_self_of hfix, List.Sorted.insertionSort_eq hsorted]
          simp only [ht]
    · by_cases hO : jsToUpper op = "OR"
      · rw [sortWhere_or op l r hA hO]
        have hfix : ∀ x ∈ ((flattenConditions (.binary_expr op l r) "OR").map
            sortWhereConditionsInPlace).insertionSort exprKeyLe,
            sortWhereConditionsInPlace x = x := by
          intro x hx
          obtain ⟨y, hy, rfl⟩ := List.mem_map.1 ((List.mem_insertionSort exprKeyLe).1 hx)
          exact sortWhere_idem y
        have hnot : ∀ x ∈ ((flattenConditions (.binary_expr op l r) "OR").map
            sortWhereConditionsInPlace).insertionSort exprKeyLe,
            x.topOperatorUpper ≠ some "OR" := by
          intro x hx
          obtain ⟨y, hy, rfl⟩ := List.mem_map.1 ((List.mem_insertionSort exprKeyLe).1 hx)
          rw [canon_topOperatorUpper]
          exact flatten_mem_not_top y hy
        have hsorted : List.Sorted exprKeyLe
            (((flattenConditions (.binary_expr op l r) "OR").map
              sortWhereConditionsInPlace).insertionSort exprKeyLe) :=
          List.sorted_insertionSort exprKeyLe _
        have hne : ((flattenConditions (.binary_expr op l r) "OR").map
            sortWhereConditionsInPlace).insertionSort exprKeyLe ≠ [] := by
          intro hc
          have hlen := congrArg List.length hc
          simp only [List.length_insertionSort, List.length_map, List.length_nil] at hlen
          exact flattenConditions_ne_nil _ _ (List.length_eq_zero.mp hlen)
        obtain ⟨t, ht⟩ := rebuildConditionTree_isSome hne "OR"
        simp only [ht]
        cases hl : ((flattenConditions (.binary_expr op l r) "OR").map
            sortWhereConditionsInPlace).insertionSort exprKeyLe with
        | nil =>
          rw [hl] at ht
          simp [rebuildConditionTree] at ht
        | cons c1 rest =>
          cases rest with
          | nil =>
            rw [hl] at ht
            have htc : t = c1 := by
              rw [show rebuildConditionTree [c1] "OR" = some c1 from rfl] at ht
              exact (Option.some.injEq _ _).mp ht.symm
            rw [htc]
            exact hfix c1 (hl ▸ List.mem_singleton_self c1)
          | cons c2 cs =>
            rw [hl] at ht hfix hnot hsorted
            have htop : t.topOperatorUpper = some "OR" := by
              have h2 := rebuild_top_of_two ht
              rwa [show jsToUpper (jsToUpper "OR") = "OR" from rfl] at h2
            obtain ⟨o2, l2, r2, rfl, ho2⟩ : ∃ o2 l2 r2, t = .binary_expr o2 l2 r2
                ∧ jsToUpper o2 = "OR" := by
              cases t
              case binary_expr o2 l2 r2 =>
                exact ⟨o2, l2, r2, rfl, by simpa [Expr.topOperatorUpper] using htop⟩
              all_goals simp [Expr.topOperatorUpper] at htop
            have hA2 : jsToUpper o2 ≠ "AND" := by rw [ho2]; decide
            rw [sortWhere_or o2 l2 r2 hA2 ho2]
            rw [flatten_rebuild (show jsToUpper "OR" = "OR" from rfl) (c1 :: c2 :: cs)
              hnot _ ht]
            rw [map_eq_self_of hfix, List.Sorted.insertionSort_eq hsorted]
            simp only [ht]
      · rw [sortWhere_cmp op l r hA hO]
        by_cases hcomm : commutativeOps.contains (jsToUpper op) = true
        · rw [if_pos hcomm]
          by_cases hsw : (jsLtB (generateSortKeyE r) (generateSortKeyE l)
              && (op == "=")) = true
          · rw [if_pos hsw]
            obtain ⟨h1, h2⟩ := Bool.and_eq_true_iff.mp hsw
            have hop : op = "=" := by simpa using h2
            subst hop
            rw [sortWhere_cmp "=" r l (by decide) (by decide), if_pos (by decide)]
            rw [if_neg (by simp [jsLtB_asymm h1])]
          · rw [if_neg (by simp [hsw])]
            rw [sortWhere_cmp op l r hA hO, if_pos hcomm, if_neg (by simp [hsw])]
        · rw [if_neg hcomm]
          rw [sortWhere_cmp op l r hA hO, if_neg hcomm]
  | .column_ref _ _ => sortWhere_idem_leaf rfl
  | .func _ _ => sortWhere_idem_leaf rfl
  | .aggr_func _ _ => sortWhere_idem_leaf rfl
  | .number _ => sortWhere_idem_leaf rfl
  | .single_quote_string _ => sortWhere_idem_leaf rfl
  | .double_quote_string _ => sortWhere_idem_leaf rfl
  | .star => sortWhere_idem_leaf rfl
  | .case_of _ => sortWhere_idem_leaf rfl
  | .expr_list _ => sortWhere_idem_leaf rfl
  | .subquery _ => sortWhere_idem_leaf rfl
  | .unknown _ => sortWhere_idem_leaf rfl
termination_by e => sizeOf e
decreasing_by
  · exact sizeOf_lt_of_mem_flattenConditions hA y hy
  · exact sizeOf_lt_of_mem_flattenConditions hO y hy

/-! ### C4: cleanliness of table names

`normalizeTableName` strips only one layer of quoting, so it is not
idempotent on names quoted more than once.  A query is *clean* when the
canonical form of every FROM-clause table name in the tree (subqueries
included) is itself a fixed point of `normalizeTableName`. -/

/-- A table name whose canonical form is canonical. -/
def cleanName (t : Option String) : Bool :=
  normalizeTableName (some (normalizeTableName t)) == normalizeTableName t

mutual

/-- Every FROM-clause table name inside the expression (via subqueries) is
clean. -/
def cleanExpr : Expr → Bool
  | .binary_expr _ l r => cleanExpr l && cleanExpr r
  | .func _ args => cleanExprList args
  | .aggr_func _ args => cleanExprList args
  | .case_of arms => cleanArmList arms
  | .expr_list value => cleanExprList value
  | .subquery ast => cleanQuery ast
  | _ => true

def cleanOptExpr : Option Expr → Bool
  | none => true
  | some e => cleanExpr e

def cleanExprList : List Expr → Bool
  | [] => true
  | e :: es => cleanExpr e && cleanExprList es

def cleanArm : CaseArm → Bool
  | .mk c r => cleanOptExpr c && cleanOptExpr r

def cleanArmList : List CaseArm → Bool
  | [] => true
  | a :: as_ => cleanArm a && cleanArmList as_

def cleanColumnEntryList : List ColumnEntry → Bool
  | [] => true
  | .mk e _ :: rest => cleanOptExpr e && cleanColumnEntryList rest

def cleanTableRefList : List TableRef → Bool
  | [] => true
  | .mk table _ _ onc :: rest =>
    cleanName table && cleanOptExpr onc && cleanTableRefList rest

def cleanOrderEntryList : List OrderEntry → Bool
  | [] => true
  | .mk e _ :: rest => cleanExpr e && cleanOrderEntryList rest

def cleanColumns : Option Columns → Bool
  | some (.list entries) => cleanColumnEntryList entries
  | _ => true

def cleanFrom : Option (List TableRef) → Bool
  | none => true
  | some ts => cleanTableRefList ts

def cleanGroupby : Option (List Expr) → Bool
  | none => true
  | some es => cleanExprList es

def cleanOrderby : Option (List OrderEntry) → Bool
  | none => true
  | some os => cleanOrderEntryList os

/-- Every FROM-clause table name in the query tree is clean. -/
def cleanQuery : Query → Bool
  | .mk cols frm wh gb hv ob =>
    cleanColumns cols && cleanFrom frm && cleanOptExpr wh &&
      cleanGroupby gb && cleanOptExpr hv && cleanOrderby ob

end

theorem cleanName_eq {t : Option String} (h : cleanName t = true) :
    normalizeTableName (some (normalizeTableName t)) = normalizeTableName t := by
  simpa [cleanName] using h

/-! ### Entrywise (map) forms of the list resolvers -/

/-- The per-entry action of the FROM-clause loop of `resolveAstAliases`. -/
def resolveTableEntry (amap : AliasMap) (impl : Option String) (t : TableRef) :
    TableRef :=
  match t with
  | .mk table asN join onc =>
    .mk (if truthyS table then some (normalizeTableName table) else table)
        (if truthyS asN then none else asN)
        join (resolveOptExpr amap impl onc)

theorem resolveExprList_map (amap : AliasMap) (impl : Option String) :
    ∀ es : List Expr, resolveExprList amap impl es
      = es.map (resolveExpressionAliasesInPlace amap impl)
  | [] => by rw [resolveExprList]; simp
  | e :: es => by
    rw [resolveExprList]
    simp [resolveExprList_map amap impl es]

theorem resolveColumnEntryList_map (amap : AliasMap) (impl : Option String) :
    ∀ es : List ColumnEntry, resolveColumnEntryList amap impl es
      = es.map (fun ce => ColumnEntry.mk (resolveOptExpr amap impl ce.expr) ce.asName)
  | [] => by rw [resolveColumnEntryList]; simp
  | .mk e a :: rest => by
    rw [resolveColumnEntryList]
    simp [resolveColumnEntryList_map amap impl rest]

theorem resolveTableRefList_map (amap : AliasMap) (impl : Option String) :
    ∀ ts : List TableRef, resolveTableRefList amap impl ts
      = ts.map (resolveTableEntry amap impl)
  | [] => by rw [resolveTableRefList]; simp
  | .mk table asN join onc :: rest => by
    rw [resolveTableRefList]
    simp [resolveTableRefList_map amap impl rest, resolveTableEntry]

theorem resolveOrderEntryList_map (amap : AliasMap) (impl : Option String) :
    ∀ os : List OrderEntry, resolveOrderEntryList amap impl os
      = os.map (fun o =>
          OrderEntry.mk (resolveExpressionAliasesInPlace amap impl o.expr) o.dir)
  | [] => by rw [resolveOrderEntryList]; simp
  | .mk e d :: rest => by
    rw [resolveOrderEntryList]
    simp [resolveOrderEntryList_map amap impl rest]

theorem resolveTableEntry_asName_falsy (amap : AliasMap) (impl : Option String)
    (t : TableRef) : truthyS (resolveTableEntry amap impl t).asName = false := by
  cases t with
  | mk table asN join onc =>
    by_cases h : truthyS asN = true <;>
      simp [resolveTableEntry, truthyS, h] <;> simp [truthyS] at h <;> simp [h]

theorem resolveTableEntry_table (amap : AliasMap) (impl : Option String)
    (t : TableRef) : (resolveTableEntry amap impl t).table
      = (if truthyS t.table then some (normalizeTableName t.table) else t.table) := by
  cases t with
  | mk table asN join onc => simp [resolveTableEntry]

/-! ### Characterizing `buildAliasMap` -/

/-- One step of the `buildAliasMap` fold over the FROM entries. -/
def bamStep (m : AliasMap) (t : TableRef) : AliasMap :=
  let tableName := normalizeTableName t.table
  if truthyS t.table && truthyS t.asName then
    amSet (amSet m (jsToLower (orEmptyS t.asName)) tableName) tableName tableName
  else if truthyS t.table then
    amSet m tableName tableName
  else m

/-- `buildAliasMap` as a fold on the FROM field alone. -/
def bamOf : Option (List TableRef) → AliasMap
  | none => []
  | some tables => tables.foldl bamStep []

theorem buildAliasMap_eq (ast : Query) : buildAliasMap ast = bamOf ast.from_ := by
  cases ast with
  | mk c f w g h o => cases f <;> rfl

theorem amGet_mem : ∀ {m : AliasMap} {k v : String}, amGet m k = some v → (k, v) ∈ m
  | [], k, v, h => by simp [amGet] at h
  | (k1, v1) :: rest, k, v, h => by
    rw [amGet] at h
    by_cases hk : k1 = k
    · rw [if_pos hk] at h
      have hv : v1 = v := (Option.some.injEq _ _).mp h
      subst hk; subst hv
      exact List.mem_cons_self _ _
    · rw [if_neg hk] at h
      exact List.mem_cons_of_mem _ (amGet_mem h)

theorem mem_bamStep {m : AliasMap} {t : TableRef} {p : String × String}
    (h : p ∈ bamStep m t) :
    p ∈ m ∨ (truthyS t.table = true ∧ p.2 = normalizeTableName t.table) := by
  rw [bamStep] at h
  by_cases h1 : (truthyS t.table && truthyS t.asName) = true
  · rw [if_pos h1] at h
    rcases List.mem_cons.1 h with h2 | h2
    · exact Or.inr ⟨(Bool.and_eq_true_iff.mp h1).1, by simp [h2]⟩
    · rcases List.mem_cons.1 h2 with h3 | h3
      · exact Or.inr ⟨(Bool.and_eq_true_iff.mp h1).1, by simp [h3]⟩
      · exact Or.inl h3
  · rw [if_neg h1] at h
    by_cases h2 : truthyS t.table = true
    · rw [if_pos h2] at h
      rcases List.mem_cons.1 h with h3 | h3
      · exact Or.inr ⟨h2, by simp [h3]⟩
      · exact Or.inl h3
    · rw [if_neg h2] at h
      exact Or.inl h
  
theorem mem_bam_fold_val : ∀ {l : List TableRef} {m : AliasMap}
    {p : String × String}, p ∈ l.foldl bamStep m →
    p ∈ m ∨ ∃ t ∈ l, truthyS t.table = true ∧ p.2 = normalizeTableName t.table
  | [], m, p, h => Or.inl h
  | t :: rest, m, p, h => by
    rcases mem_bam_fold_val (l := rest) (by simpa using h) with h1 | ⟨t1, ht1, h2, h3⟩
    · rcases mem_bamStep h1 with h2 | ⟨h3, h4⟩
      · exact Or.inl h2
      · exact Or.inr ⟨t, List.mem_cons_self t rest, h3, h4⟩
    · exact Or.inr ⟨t1, List.mem_cons_of_mem t ht1, h2, h3⟩

theorem mem_bamStep_noalias {m : AliasMap} {t : TableRef} {p : String × String}
    (ha : truthyS t.asName = false) (h : p ∈ bamStep m t) :
    p ∈ m ∨ (truthyS t.table = true ∧ p.1 = normalizeTableName t.table
      ∧ p.2 = normalizeTableName t.table) := by
  rw [bamStep] at h
  rw [if_neg (by simp [ha])] at h
  by_cases h2 : truthyS t.table = true
  · rw [if_pos h2] at h
    rcases List.mem_cons.1 h with h3 | h3
    · exact Or.inr ⟨h2, by simp [h3], by simp [h3]⟩
    · exact Or.inl h3
  · rw [if_neg h2] at h
    exact Or.inl h

theorem mem_bam_fold_noalias : ∀ {l : List TableRef} {m : AliasMap}
    {p : String × String}, (∀ t ∈ l, truthyS t.asName = false) →
    p ∈ l.foldl bamStep m →
    p ∈ m ∨ ∃ t ∈ l, truthyS t.table = true ∧ p.1 = normalizeTableName t.table
      ∧ p.2 = normalizeTableName t.table
  | [], m, p, _, h => Or.inl h
  | t :: rest, m, p, ha, h => by
    rcases mem_bam_fold_noalias (l := rest)
        (fun x hx => ha x (List.mem_cons_of_mem t hx)) (by simpa using h)
      with h1 | ⟨t1, ht1, h2, h3, h4⟩
    · rcases mem_bamStep_noalias (ha t (List.mem_cons_self t rest)) h1
        with h2 | ⟨h3, h4, h5⟩
      · exact Or.inl h2
      · exact Or.inr ⟨t, List.mem_cons_self t rest, h3, h4, h5⟩
    · exact Or.inr ⟨t1, List.mem_cons_of_mem t ht1, h2, h3, h4⟩

theorem amHas_amSet {m : AliasMap} {k : String} (k1 v1 : String)
    (h : amHas m k = true) : amHas (amSet m k1 v1) k = true := by
  rw [amSet, amHas, amGet]
  by_cases hk : k1 = k
  · simp [hk]
  · rw [if_neg hk]
    exact h

theorem amHas_bamStep {m : AliasMap} {k : String} (t : TableRef)
    (h : amHas m k = true) : amHas (bamStep m t) k = true := by
  rw [bamStep]
  by_cases h1 : (truthyS t.table && truthyS t.asName) = true
  · rw [if_pos h1]
    exact amHas_amSet _ _ (amHas_amSet _ _ h)
  · rw [if_neg h1]
    by_cases h2 : truthyS t.table = true
    · rw [if_pos h2]
      exact amHas_amSet _ _ h
    · rw [if_neg h2]
      exact h

theorem amHas_bam_fold_mono : ∀ {l : List TableRef} {m : AliasMap} {k : String},
    amHas m k = true → amHas (l.foldl bamStep m) k = true
  | [], m, k, h => h
  | t :: rest, m, k, h => by
    simpa using amHas_bam_fold_mono (l := rest) (amHas_bamStep t h)

theorem amHas_bamStep_self {m : AliasMap} {t : TableRef}
    (h : truthyS t.table = true) :
    amHas (bamStep m t) (normalizeTableName t.table) = true := by
  rw [bamStep]
  by_cases h1 : (truthyS t.table && truthyS t.asName) = true
  · rw [if_pos h1, amSet, amHas, amGet, if_pos rfl]
    rfl
  · rw [if_neg h1, if_pos h, amSet, amHas, amGet, if_pos rfl]
    rfl

theorem amHas_bam_fold_of_mem : ∀ {l : List TableRef} {m : AliasMap}
    {t : TableRef}, t ∈ l → truthyS t.table = true →
    amHas (l.foldl bamStep m) (normalizeTableName t.table) = true
  | t1 :: rest, m, t, hmem, htr => by
    rcases List.mem_cons.1 hmem with h | h
    · subst h
      simpa using amHas_bam_fold_mono (l := rest) (amHas_bamStep_self htr)
    · simpa using amHas_bam_fold_of_mem (l := rest) h htr

theorem implicitFromList_eq_some {f : Option (List TableRef)} {i : String}
    (h : implicitFromList f = some i) :
    ∃ t, f = some [t] ∧ truthyS t.table = true ∧ i = normalizeTableName t.table := by
  match f with
  | none => simp [implicitFromList] at h
  | some [] => simp [implicitFromList] at h
  | some [t] =>
    rw [implicitFromList] at h
    by_cases ht : truthyS t.table = true
    · rw [if_pos ht] at h
      exact ⟨t, rfl, ht, ((Option.some.injEq _ _).mp h).symm⟩
    · rw [if_neg ht] at h
      simp at h
  | some (t1 :: t2 :: ts) => simp [implicitFromList] at h

theorem cleanName_of_mem : ∀ {l : List TableRef} {t : TableRef},
    cleanTableRefList l = true → t ∈ l → cleanName t.table = true
  | .mk table asN join onc :: rest, t, h, hmem => by
    rw [cleanTableRefList] at h
    simp only [Bool.and_eq_true] at h
    rcases List.mem_cons.1 hmem with h1 | h1
    · subst h1
      simpa using h.1.1
    · exact cleanName_of_mem h.2 h1

theorem cleanOnc_of_mem : ∀ {l : List TableRef} {t : TableRef},
    cleanTableRefList l = true → t ∈ l → cleanOptExpr t.onc = true
  | .mk table asN join onc :: rest, t, h, hmem => by
    rw [cleanTableRefList] at h
    simp only [Bool.and_eq_true] at h
    rcases List.mem_cons.1 hmem with h1 | h1
    · subst h1
      simpa using h.1.2
    · exact cleanOnc_of_mem h.2 h1

/-- The relationship between the alias maps and implicit tables of the first
and a second alias-resolution pass that makes the second pass a no-op on
first-pass output. -/
structure ResolveFixHyp (a1 : AliasMap) (i1 : Option String)
    (a2 : AliasMap) (i2 : Option String) : Prop where
  diag : ∀ k v, amGet a2 k = some v → v = k
  sub : ∀ k, amHas a2 k = true → amHas a1 k = true
  val : ∀ k w, amGet a1 k = some w → normalizeTableName (some w) = w
  valNe : truthyS i2 = true → ∀ k w, amGet a1 k = some w → w ≠ ""
  imp : truthyS i2 = true → truthyS i1 = true
  impl1fix : ∀ i, i1 = some i → normalizeTableName (some i) = i

/-- The hypotheses of `ResolveFixHyp` hold between the maps of a clean FROM
clause and those of any second FROM clause whose entries are alias-free with
tables canonicalized entrywise from the first. -/
theorem resolveFixHyp_of (f f2 : Option (List TableRef))
    (hclean : cleanFrom f = true)
    (hnone : f = none → f2 = none)
    (hsome : ∀ l, f = some l → ∃ l2, f2 = some l2
      ∧ l2.length = l.length
      ∧ ∀ t2 ∈ l2, truthyS t2.asName = false
          ∧ ∃ t ∈ l, t2.table
              = (if truthyS t.table then some (normalizeTableName t.table)
                 else t.table)) :
    ResolveFixHyp (bamOf f) (implicitFromList f)
      (bamOf f2) (implicitFromList f2) := by
  have himpl2 : truthyS (implicitFromList f2) = true →
      ∃ t, f = some [t] ∧ truthyS t.table = true
        ∧ normalizeTableName t.table ≠ "" := by
    intro hi2
    have hex : ∃ j, implicitFromList f2 = some j := by
      cases hj : implicitFromList f2 with
      | none => rw [hj] at hi2; simp [truthyS] at hi2
      | some j => exact ⟨j, rfl⟩
    obtain ⟨j, hj⟩ := hex
    obtain ⟨t2, hf2, htr2, hjv⟩ := implicitFromList_eq_some hj
    cases hf : f with
    | none =>
      rw [hnone hf] at hf2
      exact absurd hf2 (by simp)
    | some l =>
      obtain ⟨l2, hf2b, hlen, hprops⟩ := hsome l hf
      rw [hf2b] at hf2
      have hl2 : l2 = [t2] := (Option.some.injEq _ _).mp hf2
      subst hl2
      have hl1 : l.length = 1 := by simpa using hlen.symm
      obtain ⟨t, rfl⟩ := List.length_eq_one.mp hl1
      obtain ⟨_, t1, ht1, htab⟩ := hprops t2 (List.mem_singleton_self t2)
      rw [show t1 = t by simpa using ht1] at htab
      by_cases htr : truthyS t.table = true
      · rw [if_pos htr] at htab
        refine ⟨t, rfl, htr, ?_⟩
        rw [htab] at htr2
        exact (truthyS_some_iff _).mp htr2
      · rw [if_neg htr] at htab
        rw [htab] at htr2
        exact absurd htr2 (by simp [htr])
  constructor
  case diag =>
    intro k v hget
    cases hf : f with
    | none =>
      rw [hnone hf, bamOf] at hget
      simp [amGet] at hget
    | some l =>
      obtain ⟨l2, hf2, hlen, hprops⟩ := hsome l hf
      rw [hf2, bamOf] at hget
      rcases mem_bam_fold_noalias (fun t ht => (hprops t ht).1) (amGet_mem hget)
        with h1 | ⟨t2, ht2, _, h3, h4⟩
      · simp at h1
      · have h3a : k = normalizeTableName t2.table := by simpa using h3
        have h4a : v = normalizeTableName t2.table := by simpa using h4
        rw [h4a, h3a]
  case sub =>
    intro k hhas
    cases hf : f with
    | none =>
      rw [hnone hf, bamOf] at hhas
      simp [amHas, amGet] at hhas
    | some l =>
      obtain ⟨l2, hf2, hlen, hprops⟩ := hsome l hf
      rw [hf2, bamOf] at hhas
      rw [amHas] at hhas
      obtain ⟨v, hv⟩ := Option.isSome_iff_exists.mp hhas
      rcases mem_bam_fold_noalias (fun t ht => (hprops t ht).1) (amGet_mem hv)
        with h1 | ⟨t2, ht2, htr2, h3, _⟩
      · simp at h1
      · obtain ⟨_, t, htl, htab⟩ := hprops t2 ht2
        rw [bamOf]
        by_cases htr : truthyS t.table = true
        · rw [if_pos htr] at htab
          have hk : k = normalizeTableName t.table := by
            have h3a : k = normalizeTableName t2.table := by simpa using h3
            rw [h3a, htab]
            exact cleanName_eq (cleanName_of_mem
              (by simpa [cleanFrom, hf] using hclean) htl)
          rw [hk]
          exact amHas_bam_fold_of_mem htl htr
        · rw [if_neg htr] at htab
          rw [htab] at htr2
          exact absurd htr2 (by simp [htr])
  case val =>
    intro k w hget
    cases hf : f with
    | none =>
      rw [hf, bamOf] at hget
      simp [amGet] at hget
    | some l =>
      rw [hf, bamOf] at hget
      rcases mem_bam_fold_val (amGet_mem hget) with h1 | ⟨t, htl, htr, h2⟩
      · simp at h1
      · have h2a : w = normalizeTableName t.table := by simpa using h2
        rw [h2a]
        exact cleanName_eq (cleanName_of_mem
          (by simpa [cleanFrom, hf] using hclean) htl)
  case valNe =>
    intro hi2 k w hget
    obtain ⟨t, hf, htr, hcne⟩ := himpl2 hi2
    rw [hf, bamOf] at hget
    rcases mem_bam_fold_val (amGet_mem hget) with h1 | ⟨t1, htl, _, h2⟩
    · simp at h1
    · have h2a : w = normalizeTableName t1.table := by simpa using h2
      rw [show t1 = t by simpa using htl] at h2a
      rw [h2a]
      exact hcne
  case imp =>
    intro hi2
    obtain ⟨t, hf, htr, hcne⟩ := himpl2 hi2
    rw [hf]
    rw [implicitFromList, if_pos htr]
    exact (truthyS_some_iff _).mpr hcne
  case impl1fix =>
    intro i hi
    obtain ⟨t, hf, htr, hiv⟩ := implicitFromList_eq_some hi
    rw [hiv]
    exact cleanName_eq (cleanName_of_mem (by simpa [cleanFrom, hf] using hclean)
      (by simp [hf]))

theorem truthyS_none : truthyS none = false := rfl

theorem resolveColumnRef_hit {a : AliasMap} {i t : Option String} {w c : String}
    (ht : truthyS t = true) (hg : amGet a (normalizeTableName t) = some w) :
    resolveExpressionAliasesInPlace a i (.column_ref t c) = .column_ref (some w) c := by
  rw [resolveExpressionAliasesInPlace]
  simp only [if_pos ht, hg]

theorem resolveColumnRef_miss {a : AliasMap} {i t : Option String} {c : String}
    (ht : truthyS t = true) (hg : amGet a (normalizeTableName t) = none) :
    resolveExpressionAliasesInPlace a i (.column_ref t c) = .column_ref t c := by
  rw [resolveExpressionAliasesInPlace]
  simp only [if_pos ht, hg]

theorem resolveColumnRef_impl {a : AliasMap} {i t : Option String} {c : String}
    (ht : truthyS t = false) (hi : truthyS i = true) :
    resolveExpressionAliasesInPlace a i (.column_ref t c) = .column_ref i c := by
  rw [resolveExpressionAliasesInPlace]
  simp only [ht, hi, Bool.false_eq_true, if_false, if_true]

theorem resolveColumnRef_none {a : AliasMap} {i t : Option String} {c : String}
    (ht : truthyS t = false) (hi : truthyS i = false) :
    resolveExpressionAliasesInPlace a i (.column_ref t c) = .column_ref t c := by
  rw [resolveExpressionAliasesInPlace]
  simp only [ht, hi, Bool.false_eq_true, if_false]

/-- Under `ResolveFixHyp`, a second resolution pass leaves the first pass's
output on a column reference unchanged. -/
theorem columnRef_fixed {a1 : AliasMap} {i1 : Option String} {a2 : AliasMap}
    {i2 : Option String} (H : ResolveFixHyp a1 i1 a2 i2)
    (t : Option String) (c : String) :
    resolveExpressionAliasesInPlace a2 i2
        (resolveExpressionAliasesInPlace a1 i1 (.column_ref t c))
      = resolveExpressionAliasesInPlace a1 i1 (.column_ref t c) := by
  by_cases ht : truthyS t = true
  · cases hg : amGet a1 (normalizeTableName t) with
    | some w =>
      rw [resolveColumnRef_hit ht hg]
      by_cases hw : truthyS (some w) = true
      · have hwfix := H.val _ _ hg
        cases hg2 : amGet a2 w with
        | some v =>
          rw [resolveColumnRef_hit hw (by rw [hwfix]; exact hg2), H.diag _ _ hg2]
        | none => exact resolveColumnRef_miss hw (by rw [hwfix]; exact hg2)
      · have hw0 : truthyS (some w) = false := by simpa using hw
        have hi2 : truthyS i2 = false := by
          by_cases h2 : truthyS i2 = true
          · have hwne : w ≠ "" := H.valNe h2 _ _ hg
            exact absurd ((truthyS_some_iff w).mpr hwne) (by simp [hw0])
          · simpa using h2
        exact resolveColumnRef_none hw0 hi2
    | none =>
      rw [resolveColumnRef_miss ht hg]
      cases hg2 : amGet a2 (normalizeTableName t) with
      | some v =>
        exfalso
        have h2 : amHas a2 (normalizeTableName t) = true := by
          rw [amHas, hg2]; rfl
        have h1 : amHas a1 (normalizeTableName t) = true := H.sub _ h2
        rw [amHas, hg] at h1
        simp at h1
      | none => exact resolveColumnRef_miss ht hg2
  · have ht0 : truthyS t = false := by simpa using ht
    by_cases hi : truthyS i1 = true
    · have hex : ∃ i, i1 = some i := by
        cases i1 with
        | none => simp [truthyS] at hi
        | some i => exact ⟨i, rfl⟩
      obtain ⟨i, rfl⟩ := hex
      rw [resolveColumnRef_impl ht0 hi]
      have hifix := H.impl1fix i rfl
      cases hg2 : amGet a2 i with
      | some v =>
        rw [resolveColumnRef_hit hi (by rw [hifix]; exact hg2), H.diag _ _ hg2]
      | none => exact resolveColumnRef_miss hi (by rw [hifix]; exact hg2)
    · have hi0 : truthyS i1 = false := by simpa using hi
      have hi2 : truthyS i2 = false := by
        by_cases h2 : truthyS i2 = true
        · exact absurd (H.imp h2) (by simp [hi0])
        · simpa using h2
      rw [resolveColumnRef_none ht0 hi0]
      exact resolveColumnRef_none ht0 hi2

theorem tableNameStep_fixed {table : Option String} (h : cleanName table = true) :
    (if truthyS (if truthyS table then some (normalizeTableName table) else table)
     then some (normalizeTableName
        (if truthyS table then some (normalizeTableName table) else table))
     else (if truthyS table then some (normalizeTableName table) else table))
    = (if truthyS table then some (normalizeTableName table) else table) := by
  by_cases htr : truthyS table = true
  · simp only [if_pos htr]
    by_cases h2 : truthyS (some (normalizeTableName table)) = true
    · simp only [if_pos h2, cleanName_eq h]
    · simp only [if_neg h2]
  · simp only [if_neg htr]

theorem asNameStep_fixed (asN : Option String) :
    (if truthyS (if truthyS asN then none else asN) then none
     else (if truthyS asN then none else asN))
    = (if truthyS asN then none else asN) := by
  by_cases ha : truthyS asN = true
  · simp only [if_pos ha, ite_self]
  · simp only [if_neg ha]

/-- `ResolveFixHyp` holds between the maps of a clean FROM clause and those
of its own first-pass resolution. -/
theorem resolveFromField_hyp (a : AliasMap) (i : Option String)
    (frm : Option (List TableRef)) (hclean : cleanFrom frm = true) :
    ResolveFixHyp (bamOf frm) (implicitFromList frm)
      (bamOf (resolveFromField a i frm))
      (implicitFromList (resolveFromField a i frm)) := by
  refine resolveFixHyp_of frm _ hclean (fun h => by rw [h, resolveFromField]) ?_
  intro l hl
  rw [hl, resolveFromField]
  refine ⟨resolveTableRefList a i l, rfl, ?_, ?_⟩
  · rw [resolveTableRefList_map]
    exact List.length_map l _
  · intro t2 ht2
    rw [resolveTableRefList_map] at ht2
    obtain ⟨t, htl, rfl⟩ := List.mem_map.1 ht2
    exact ⟨resolveTableEntry_asName_falsy a i t, t, htl, resolveTableEntry_table a i t⟩

mutual

theorem exprFixed (a1 : AliasMap) (i1 : Option String) (a2 : AliasMap)
    (i2 : Option String) (H : ResolveFixHyp a1 i1 a2 i2) :
    ∀ e : Expr, cleanExpr e = true →
      resolveExpressionAliasesInPlace a2 i2 (resolveExpressionAliasesInPlace a1 i1 e)
        = resolveExpressionAliasesInPlace a1 i1 e
  | .column_ref t c, _ => columnRef_fixed H t c
  | .binary_expr op l r, h => by
    have hc : cleanExpr l = true ∧ cleanExpr r = true := by
      rw [cleanExpr] at h
      simpa [Bool.and_eq_true] using h
    rw [resolveExpressionAliasesInPlace]
    rw [resolveExpressionAliasesInPlace]
    rw [exprFixed a1 i1 a2 i2 H l hc.1, exprFixed a1 i1 a2 i2 H r hc.2]
  | .func n args, h => by
    rw [resolveExpressionAliasesInPlace]
    rw [resolveExpressionAliasesInPlace]
    rw [exprListFixed a1 i1 a2 i2 H args (by rw [cleanExpr] at h; exact h)]
  | .aggr_func n args, h => by
    rw [resolveExpressionAliasesInPlace]
    rw [resolveExpressionAliasesInPlace]
    rw [exprListFixed a1 i1 a2 i2 H args (by rw [cleanExpr] at h; exact h)]
  | .case_of arms, h => by
    rw [resolveExpressionAliasesInPlace]
    rw [resolveExpressionAliasesInPlace]
    rw [armListFixed a1 i1 a2 i2 H arms (by rw [cleanExpr] at h; exact h)]
  | .expr_list value, h => by
    rw [resolveExpressionAliasesInPlace]
    rw [resolveExpressionAliasesInPlace]
    rw [exprListFixed a1 i1 a2 i2 H value (by rw [cleanExpr] at h; exact h)]
  | .subquery ast, h => by
    rw [resolveExpressionAliasesInPlace]
    rw [resolveExpressionAliasesInPlace]
    rw [resolveAst_idem ast (by rw [cleanExpr] at h; exact h)]
  | .number v, _ => by simp [resolveExpressionAliasesInPlace]
  | .single_quote_string v, _ => by simp [resolveExpressionAliasesInPlace]
  | .double_quote_string v, _ => by simp [resolveExpressionAliasesInPlace]
  | .star, _ => by simp [resolveExpressionAliasesInPlace]
  | .unknown raw, _ => by simp [resolveExpressionAliasesInPlace]

theorem optExprFixed (a1 : AliasMap) (i1 : Option String) (a2 : AliasMap)
    (i2 : Option String) (H : ResolveFixHyp a1 i1 a2 i2) :
    ∀ o : Option Expr, cleanOptExpr o = true →
      resolveOptExpr a2 i2 (resolveOptExpr a1 i1 o) = resolveOptExpr a1 i1 o
  | none, _ => by simp [resolveOptExpr]
  | some e, h => by
    rw [resolveOptExpr]
    rw [resolveOptExpr]
    rw [exprFixed a1 i1 a2 i2 H e (by rw [cleanOptExpr] at h; exact h)]

theorem exprListFixed (a1 : AliasMap) (i1 : Option String) (a2 : AliasMap)
    (i2 : Option String) (H : ResolveFixHyp a1 i1 a2 i2) :
    ∀ es : List Expr, cleanExprList es = true →
      resolveExprList a2 i2 (resolveExprList a1 i1 es) = resolveExprList a1 i1 es
  | [], _ => by simp [resolveExprList]
  | e :: es, h => by
    have hc : cleanExpr e = true ∧ cleanExprList es = true := by
      rw [cleanExprList] at h
      simpa [Bool.and_eq_true] using h
    rw [resolveExprList]
    rw [resolveExprList]
    rw [exprFixed a1 i1 a2 i2 H e hc.1, exprListFixed a1 i1 a2 i2 H es hc.2]

theorem armFixed (a1 : AliasMap) (i1 : Option String) (a2 : AliasMap)
    (i2 : Option String) (H : ResolveFixHyp a1 i1 a2 i2) :
    ∀ a : CaseArm, cleanArm a = true →
      resolveArm a2 i2 (resolveArm a1 i1 a) = resolveArm a1 i1 a
  | .mk c r, h => by
    have hc : cleanOptExpr c = true ∧ cleanOptExpr r = true := by
      rw [cleanArm] at h
      simpa [Bool.and_eq_true] using h
    rw [resolveArm]
    rw [resolveArm]
    rw [optExprFixed a1 i1 a2 i2 H c hc.1, optExprFixed a1 i1 a2 i2 H r hc.2]

theorem armListFixed (a1 : AliasMap) (i1 : Option String) (a2 : AliasMap)
    (i2 : Option String) (H : ResolveFixHyp a1 i1 a2 i2) :
    ∀ as_ : List CaseArm, cleanArmList as_ = true →
      resolveArmList a2 i2 (resolveArmList a1 i1 as_) = resolveArmList a1 i1 as_
  | [], _ => by simp [resolveArmList]
  | a :: as_, h => by
    have hc : cleanArm a = true ∧ cleanArmList as_ = true := by
      rw [cleanArmList] at h
      simpa [Bool.and_eq_true] using h
    rw [resolveArmList]
    rw [resolveArmList]
    rw [armFixed a1 i1 a2 i2 H a hc.1, armListFixed a1 i1 a2 i2 H as_ hc.2]

theorem columnEntryListFixed (a1 : AliasMap) (i1 : Option String) (a2 : AliasMap)
    (i2 : Option String) (H : ResolveFixHyp a1 i1 a2 i2) :
    ∀ es : List ColumnEntry, cleanColumnEntryList es = true →
      resolveColumnEntryList a2 i2 (resolveColumnEntryList a1 i1 es)
        = resolveColumnEntryList a1 i1 es
  | [], _ => by simp [resolveColumnEntryList]
  | .mk e a :: rest, h => by
    have hc : cleanOptExpr e = true ∧ cleanColumnEntryList rest = true := by
      rw [cleanColumnEntryList] at h
      simpa [Bool.and_eq_true] using h
    rw [resolveColumnEntryList]
    rw [resolveColumnEntryList]
    rw [optExprFixed a1 i1 a2 i2 H e hc.1,
      columnEntryListFixed a1 i1 a2 i2 H rest hc.2]

theorem tableRefListFixed (a1 : AliasMap) (i1 : Option String) (a2 : AliasMap)
    (i2 : Option String) (H : ResolveFixHyp a1 i1 a2 i2) :
    ∀ ts : List TableRef, cleanTableRefList ts = true →
      resolveTableRefList a2 i2 (resolveTableRefList a1 i1 ts)
        = resolveTableRefList a1 i1 ts
  | [], _ => by simp [resolveTableRefList]
  | .mk table asN join onc :: rest, h => by
    have hc : cleanName table = true ∧ cleanOptExpr onc = true
        ∧ cleanTableRefList rest = true := by
      rw [cleanTableRefList] at h
      simpa [Bool.and_eq_true, and_assoc] using h
    rw [resolveTableRefList]
    rw [resolveTableRefList]
    rw [optExprFixed a1 i1 a2 i2 H onc hc.2.1,
      tableRefListFixed a1 i1 a2 i2 H rest hc.2.2,
      tableNameStep_fixed hc.1, asNameStep_fixed]

theorem orderEntryListFixed (a1 : AliasMap) (i1 : Option String) (a2 : AliasMap)
    (i2 : Option String) (H : ResolveFixHyp a1 i1 a2 i2) :
    ∀ os : List OrderEntry, cleanOrderEntryList os = true →
      resolveOrderEntryList a2 i2 (resolveOrderEntryList a1 i1 os)
        = resolveOrderEntryList a1 i1 os
  | [], _ => by simp [resolveOrderEntryList]
  | .mk e d :: rest, h => by
    have hc : cleanExpr e = true ∧ cleanOrderEntryList rest = true := by
      rw [cleanOrderEntryList] at h
      simpa [Bool.and_eq_true] using h
    rw [resolveOrderEntryList]
    rw [resolveOrderEntryList]
    rw [exprFixed a1 i1 a2 i2 H e hc.1,
      orderEntryListFixed a1 i1 a2 i2 H rest hc.2]

theorem columnsFieldFixed (a1 : AliasMap) (i1 : Option String) (a2 : AliasMap)
    (i2 : Option String) (H : ResolveFixHyp a1 i1 a2 i2) :
    ∀ cols : Option Columns, cleanColumns cols = true →
      resolveColumnsField a2 i2 (resolveColumnsField a1 i1 cols)
        = resolveColumnsField a1 i1 cols
  | none, _ => by simp [resolveColumnsField]
  | some .all, _ => by simp [resolveColumnsField]
  | some (.list entries), h => by
    rw [resolveColumnsField]
    rw [resolveColumnsField]
    rw [columnEntryListFixed a1 i1 a2 i2 H entries (by rw [cleanColumns] at h; exact h)]

theorem fromFieldFixed (a1 : AliasMap) (i1 : Option String) (a2 : AliasMap)
    (i2 : Option String) (H : ResolveFixHyp a1 i1 a2 i2) :
    ∀ frm : Option (List TableRef), cleanFrom frm = true →
      resolveFromField a2 i2 (resolveFromField a1 i1 frm)
        = resolveFromField a1 i1 frm
  | none, _ => by simp [resolveFromField]
  | some ts, h => by
    rw [resolveFromField]
    rw [resolveFromField]
    rw [tableRefListFixed a1 i1 a2 i2 H ts (by rw [cleanFrom] at h; exact h)]

theorem groupbyFieldFixed (a1 : AliasMap) (i1 : Option String) (a2 : AliasMap)
    (i2 : Option String) (H : ResolveFixHyp a1 i1 a2 i2) :
    ∀ gb : Option (List Expr), cleanGroupby gb = true →
      resolveGroupbyField a2 i2 (resolveGroupbyField a1 i1 gb)
        = resolveGroupbyField a1 i1 gb
  | none, _ => by simp [resolveGroupbyField]
  | some es, h => by
    rw [resolveGroupbyField]
    rw [resolveGroupbyField]
    rw [exprListFixed a1 i1 a2 i2 H es (by rw [cleanGroupby] at h; exact h)]

theorem orderbyFieldFixed (a1 : AliasMap) (i1 : Option String) (a2 : AliasMap)
    (i2 : Option String) (H : ResolveFixHyp a1 i1 a2 i2) :
    ∀ ob : Option (List OrderEntry), cleanOrderby ob = true →
      resolveOrderbyField a2 i2 (resolveOrderbyField a1 i1 ob)
        = resolveOrderbyField a1 i1 ob
  | none, _ => by simp [resolveOrderbyField]
  | some os, h => by
    rw [resolveOrderbyField]
    rw [resolveOrderbyField]
    rw [orderEntryListFixed a1 i1 a2 i2 H os (by rw [cleanOrderby] at h; exact h)]

/-- Alias resolution is idempotent on clean queries: re-resolving its output
with the output's own alias map changes nothing. -/
theorem resolveAst_idem : ∀ q : Query, cleanQuery q = true →
    resolveAstAliases (resolveAstAliases q (buildAliasMap q))
        (buildAliasMap (resolveAstAliases q (buildAliasMap q)))
      = resolveAstAliases q (buildAliasMap q)
  | .mk cols frm wh gb hv ob, h => by
    obtain ⟨h1, h2, h3, h4, h5, h6⟩ : cleanColumns cols = true ∧ cleanFrom frm = true
        ∧ cleanOptExpr wh = true ∧ cleanGroupby gb = true ∧ cleanOptExpr hv = true
        ∧ cleanOrderby ob = true := by
      rw [cleanQuery] at h
      simpa [Bool.and_eq_true, and_assoc] using h
    rw [buildAliasMap_eq, Query.from_mk]
    rw [resolveAstAliases]
    rw [buildAliasMap_eq, Query.from_mk]
    rw [resolveAstAliases]
    have H := resolveFromField_hyp (bamOf frm) (implicitFromList frm) frm h2
    rw [columnsFieldFixed _ _ _ _ H cols h1,
      fromFieldFixed _ _ _ _ H frm h2,
      optExprFixed _ _ _ _ H wh h3,
      groupbyFieldFixed _ _ _ _ H gb h4,
      optExprFixed _ _ _ _ H hv h5,
      orderbyFieldFixed _ _ _ _ H ob h6]

end

theorem resolve_binary_iff (a : AliasMap) (i : Option String) (op : String)
    (l r : Expr) :
    resolveExpressionAliasesInPlace a i (.binary_expr op l r) = .binary_expr op l r
      ↔ (resolveExpressionAliasesInPlace a i l = l
         ∧ resolveExpressionAliasesInPlace a i r = r) := by
  rw [resolveExpressionAliasesInPlace]
  simp [Expr.binary_expr.injEq]

theorem resolve_fixed_flatten (a : AliasMap) (i : Option String) :
    ∀ (e : Expr) (op : String),
      resolveExpressionAliasesInPlace a i e = e →
      ∀ x ∈ flattenConditions e op, resolveExpressionAliasesInPlace a i x = x := by
  intro e op he x hx
  rw [flattenConditions.eq_def] at hx
  split at hx
  case _ o l r =>
    split at hx
    · rcases List.mem_append.1 hx with hm | hm
      · exact resolve_fixed_flatten a i l op ((resolve_binary_iff a i o l r).mp he).1 x hm
      · exact resolve_fixed_flatten a i r op ((resolve_binary_iff a i o l r).mp he).2 x hm
    · simp only [List.mem_singleton] at hx
      subst hx
      exact he
  case _ =>
    simp only [List.mem_singleton] at hx
    subst hx
    exact he
termination_by e => sizeOf e

theorem resolve_fixed_rebuild (a : AliasMap) (i : Option String) :
    ∀ (cs : List Expr) (op : String) (t : Expr),
      rebuildConditionTree cs op = some t →
      (∀ x ∈ cs, resolveExpressionAliasesInPlace a i x = x) →
      resolveExpressionAliasesInPlace a i t = t
  | [], op, t, h, _ => by rw [rebuildConditionTree] at h; exact absurd h (by simp)
  | [c], op, t, h, hall => by
    rw [rebuildConditionTree] at h
    rw [← (Option.some.injEq _ _).mp h]
    exact hall c (List.mem_singleton_self c)
  | c :: c2 :: cs, op, t, h, hall => by
    rw [rebuildConditionTree_cons2] at h
    cases hr : rebuildConditionTree (c2 :: cs) op with
    | some rest =>
      rw [hr] at h
      simp only [] at h
      rw [← (Option.some.injEq _ _).mp h]
      refine (resolve_binary_iff a i (jsToUpper op) c rest).mpr
        ⟨hall c (List.mem_cons_self c _), ?_⟩
      exact resolve_fixed_rebuild a i (c2 :: cs) op rest hr
        (fun x hx => hall x (List.mem_cons_of_mem c hx))
    | none =>
      exact absurd hr (by
        obtain ⟨t2, ht2⟩ := rebuildConditionTree_isSome
          (show (c2 :: cs) ≠ [] by simp) op
        simp [ht2])

/-- Canonicalization of a predicate that the second resolution pass leaves
unchanged again yields a predicate the second pass leaves unchanged. -/
theorem resolve_canon_fixed (a : AliasMap) (i : Option String) :
    ∀ e : Expr, resolveExpressionAliasesInPlace a i e = e →
      resolveExpressionAliasesInPlace a i (sortWhereConditionsInPlace e)
        = sortWhereConditionsInPlace e
  | .binary_expr op l r, he => by
    by_cases hA : jsToUpper op = "AND"
    · rw [sortWhere_and op l r hA]
      have hall : ∀ x ∈ ((flattenConditions (.binary_expr op l r) "AND").map
          sortWhereConditionsInPlace).insertionSort exprKeyLe,
          resolveExpressionAliasesInPlace a i x = x := by
        intro x hx
        obtain ⟨y, hy, rfl⟩ := List.mem_map.1 ((List.mem_insertionSort exprKeyLe).1 hx)
        exact resolve_canon_fixed a i y
          (resolve_fixed_flatten a i (.binary_expr op l r) "AND" he y hy)
      have hne : ((flattenConditions (.binary_expr op l r) "AND").map
          sortWhereConditionsInPlace).insertionSort exprKeyLe ≠ [] := by
        intro hc
        have hlen := congrArg List.length hc
        simp only [List.length_insertionSort, List.length_map, List.length_nil] at hlen
        exact flattenConditions_ne_nil _ _ (List.length_eq_zero.mp hlen)
      obtain ⟨t, ht⟩ := rebuildConditionTree_isSome hne "AND"
      simp only [ht]
      exact resolve_fixed_rebuild a i _ "AND" t ht hall
    · by_cases hO : jsToUpper op = "OR"
      · rw [sortWhere_or op l r hA hO]
        have hall : ∀ x ∈ ((flattenConditions (.binary_expr op l r) "OR").map
            sortWhereConditionsInPlace).insertionSort exprKeyLe,
            resolveExpressionAliasesInPlace a i x = x := by
          intro x hx
          obtain ⟨y, hy, rfl⟩ := List.mem_map.1 ((List.mem_insertionSort exprKeyLe).1 hx)
          exact resolve_canon_fixed a i y
            (resolve_fixed_flatten a i (.binary_expr op l r) "OR" he y hy)
        have hne : ((flattenConditions (.binary_expr op l r) "OR").map
            sortWhereConditionsInPlace).insertionSort exprKeyLe ≠ [] := by
          intro hc
          have hlen := congrArg List.length hc
          simp only [List.length_insertionSort, List.length_map, List.length_nil] at hlen
          exact flattenConditions_ne_nil _ _ (List.length_eq_zero.mp hlen)
        obtain ⟨t, ht⟩ := rebuildConditionTree_isSome hne "OR"
        simp only [ht]
        exact resolve_fixed_rebuild a i _ "OR" t ht hall
      · rw [sortWhere_cmp op l r hA hO]
        by_cases hcomm : commutativeOps.contains (jsToUpper op) = true
        · rw [if_pos hcomm]
          by_cases hsw : (jsLtB (generateSortKeyE r) (generateSortKeyE l)
              && (op == "=")) = true
          · rw [if_pos hsw]
            exact (resolve_binary_iff a i op r l).mpr
              ⟨((resolve_binary_iff a i op l r).mp he).2,
               ((resolve_binary_iff a i op l r).mp he).1⟩
          · rw [if_neg (by simp [hsw])]
            exact he
        · rw [if_neg hcomm]
          exact he
  | .column_ref t c, he => by
    rw [sortWhere_not_binary (e := .column_ref t c) rfl]; exact he
  | .func n args, he => by
    rw [sortWhere_not_binary (e := .func n args) rfl]; exact he
  | .aggr_func n args, he => by
    rw [sortWhere_not_binary (e := .aggr_func n args) rfl]; exact he
  | .number v, he => by
    rw [sortWhere_not_binary (e := .number v) rfl]; exact he
  | .single_quote_string v, he => by
    rw [sortWhere_not_binary (e := .single_quote_string v) rfl]; exact he
  | .double_quote_string v, he => by
    rw [sortWhere_not_binary (e := .double_quote_string v) rfl]; exact he
  | .star, he => by
    rw [sortWhere_not_binary (e := .star) rfl]; exact he
  | .case_of args, he => by
    rw [sortWhere_not_binary (e := .case_of args) rfl]; exact he
  | .expr_list value, he => by
    rw [sortWhere_not_binary (e := .expr_list value) rfl]; exact he
  | .subquery ast, he => by
    rw [sortWhere_not_binary (e := .subquery ast) rfl]; exact he
  | .unknown raw, he => by
    rw [sortWhere_not_binary (e := .unknown raw) rfl]; exact he
termination_by e => sizeOf e
decreasing_by
  · exact sizeOf_lt_of_mem_flattenConditions hA y hy
  · exact sizeOf_lt_of_mem_flattenConditions hO y hy

theorem sortWhereConditions_idem (w : Option Expr) :
    sortWhereConditions (sortWhereConditions w) = sortWhereConditions w := by
  cases w with
  | none => rfl
  | some e =>
    rw [sortWhereConditions, sortWhereConditions]
    rw [sortWhere_idem e]

theorem sortGroupBy_idem (g : Option (List Expr)) :
    sortGroupBy (sortGroupBy g) = sortGroupBy g := by
  cases g with
  | none => rfl
  | some l =>
    rw [sortGroupBy, sortGroupBy]
    rw [List.Sorted.insertionSort_eq (List.sorted_insertionSort exprKeyLe l)]

theorem sortJoinOn_idem (t : TableRef) : sortJoinOn (sortJoinOn t) = sortJoinOn t := by
  cases t with
  | mk table asN join onc =>
    cases onc with
    | none => rfl
    | some e =>
      rw [sortJoinOn, sortJoinOn]
      rw [sortWhere_idem e]

theorem stdSelectAliasEntry_idem (ce : ColumnEntry) :
    stdSelectAliasEntry (stdSelectAliasEntry ce) = stdSelectAliasEntry ce := by
  cases ce with
  | mk e a =>
    by_cases ha : truthyS a = true
    · simp [stdSelectAliasEntry, ha]
    · have ha0 : truthyS a = false := by simpa using ha
      cases e with
      | none => simp [stdSelectAliasEntry, ha0]
      | some ex =>
        cases ex with
        | column_ref t col =>
          by_cases hc : truthyS (some col) = true
          · simp [stdSelectAliasEntry, ha0, hc]
          · simp [stdSelectAliasEntry, ha0,
              (by simpa using hc : truthyS (some col) = false)]
        | double_quote_string v =>
          by_cases hv : truthyS (some v) = true
          · simp [stdSelectAliasEntry, ha0, hv]
          · simp [stdSelectAliasEntry, ha0,
              (by simpa using hv : truthyS (some v) = false)]
        | binary_expr op l r => simp [stdSelectAliasEntry, ha0]
        | func n args => simp [stdSelectAliasEntry, ha0]
        | aggr_func n args => simp [stdSelectAliasEntry, ha0]
        | number v => simp [stdSelectAliasEntry, ha0]
        | single_quote_string v => simp [stdSelectAliasEntry, ha0]
        | star => simp [stdSelectAliasEntry, ha0]
        | case_of args => simp [stdSelectAliasEntry, ha0]
        | expr_list value => simp [stdSelectAliasEntry, ha0]
        | subquery ast => simp [stdSelectAliasEntry, ha0]
        | unknown raw => simp [stdSelectAliasEntry, ha0]

theorem mem_sortSelect_parts {entries : List ColumnEntry} {x : ColumnEntry}
    (hx : x ∈ entries.filter isStarEntry
      ++ (entries.filter (fun c => !isStarEntry c)).insertionSort columnKeyLe) :
    x ∈ entries := by
  rcases List.mem_append.1 hx with h | h
  · exact List.mem_of_mem_filter h
  · exact List.mem_of_mem_filter ((List.mem_insertionSort columnKeyLe).1 h)

theorem standardizeSelectAliases_idem (c : Option Columns) :
    standardizeSelectAliases (standardizeSelectAliases c)
      = standardizeSelectAliases c := by
  match c with
  | none => rfl
  | some .all => rfl
  | some (.list entries) =>
    rw [standardizeSelectAliases, standardizeSelectAliases]
    rw [List.map_map]
    have hmap : List.map (stdSelectAliasEntry ∘ stdSelectAliasEntry) entries
        = List.map stdSelectAliasEntry entries :=
      List.map_congr_left (fun x _ => stdSelectAliasEntry_idem x)
    rw [hmap]

theorem standardizeSelectAliases_sortSelect (c : Option Columns) :
    standardizeSelectAliases (sortSelectColumns (standardizeSelectAliases c))
      = sortSelectColumns (standardizeSelectAliases c) := by
  match c with
  | none => rfl
  | some .all => rfl
  | some (.list entries) =>
    rw [standardizeSelectAliases, sortSelectColumns, standardizeSelectAliases]
    rw [map_eq_self_of]
    intro x hx
    obtain ⟨y, _, rfl⟩ := List.mem_map.1 (mem_sortSelect_parts hx)
    exact stdSelectAliasEntry_idem y

theorem sortSelectColumns_idem (c : Option Columns) :
    sortSelectColumns (sortSelectColumns c) = sortSelectColumns c := by
  match c with
  | none => rfl
  | some .all => rfl
  | some (.list entries) =>
    rw [sortSelectColumns, sortSelectColumns]
    have h1 : (entries.filter isStarEntry
        ++ (entries.filter (fun c => !isStarEntry c)).insertionSort
          columnKeyLe).filter isStarEntry = entries.filter isStarEntry := by
      rw [List.filter_append]
      rw [List.filter_filter]
      have h2 : ((entries.filter (fun c => !isStarEntry c)).insertionSort
          columnKeyLe).filter isStarEntry = [] := by
        rw [List.filter_eq_nil]
        intro x hx
        have := List.of_mem_filter ((List.mem_insertionSort columnKeyLe).1 hx)
        simpa using this
      rw [h2]
      simp [Bool.and_self]
    have h3 : (entries.filter isStarEntry
        ++ (entries.filter (fun c => !isStarEntry c)).insertionSort
          columnKeyLe).filter (fun c => !isStarEntry c)
        = (entries.filter (fun c => !isStarEntry c)).insertionSort columnKeyLe := by
      rw [List.filter_append]
      have h4 : (entries.filter isStarEntry).filter (fun c => !isStarEntry c) = [] := by
        rw [List.filter_eq_nil]
        intro x hx
        have := List.of_mem_filter hx
        simp [this]
      have h5 : ((entries.filter (fun c => !isStarEntry c)).insertionSort
          columnKeyLe).filter (fun c => !isStarEntry c)
          = (entries.filter (fun c => !isStarEntry c)).insertionSort columnKeyLe := by
        rw [List.filter_eq_self]
        intro x hx
        simpa using List.of_mem_filter ((List.mem_insertionSort columnKeyLe).1 hx)
      rw [h4, h5]
      rfl
    rw [h1, h3]
    rw [List.Sorted.insertionSort_eq (List.sorted_insertionSort columnKeyLe _)]

theorem sortJoinClauses_none : sortJoinClauses none = none := rfl

theorem sortJoinClauses_some (l : List TableRef) :
    sortJoinClauses (some l) =
      if l.length ≤ 1 then some l
      else match l with
        | [] => some []
        | t :: joins => some (t :: (joins.insertionSort joinKeyLe).map sortJoinOn) := rfl

theorem sortJoinClauses_idem (f : Option (List TableRef)) :
    sortJoinClauses (sortJoinClauses f) = sortJoinClauses f := by
  match f with
  | none => rfl
  | some l =>
    rw [sortJoinClauses_some]
    by_cases hlen : l.length ≤ 1
    · rw [if_pos hlen, sortJoinClauses_some, if_pos hlen]
    · rw [if_neg hlen]
      match l, hlen with
      | t :: joins, hlen =>
        show sortJoinClauses (some (t :: (joins.insertionSort joinKeyLe).map sortJoinOn))
          = some (t :: (joins.insertionSort joinKeyLe).map sortJoinOn)
        rw [sortJoinClauses_some]
        have hlen2 : ¬(t :: (joins.insertionSort joinKeyLe).map sortJoinOn).length ≤ 1 := by
          simpa using hlen
        rw [if_neg hlen2]
        simp only []
        have hs : List.Sorted joinKeyLe
            ((joins.insertionSort joinKeyLe).map sortJoinOn) := by
          refine List.Pairwise.map sortJoinOn ?_
            (List.sorted_insertionSort joinKeyLe joins)
          intro a b hab
          rw [joinKeyLe, joinKey_sortJoinOn, joinKey_sortJoinOn]
          exact hab
        rw [List.Sorted.insertionSort_eq hs]
        rw [List.map_map]
        have hmap : List.map (sortJoinOn ∘ sortJoinOn)
            (joins.insertionSort joinKeyLe)
            = List.map sortJoinOn (joins.insertionSort joinKeyLe) :=
          List.map_congr_left (fun x _ => sortJoinOn_idem x)
        rw [hmap]

theorem map_eq_self_forall {α : Type} {f : α → α} :
    ∀ {l : List α}, l.map f = l → ∀ x ∈ l, f x = x
  | [], _, x, hx => absurd hx (by simp)
  | a :: l, h, x, hx => by
    rw [List.map_cons] at h
    have h1 : f a = a := (List.cons.injEq _ _ _ _ ▸ h : _ ∧ _).1
    have h2 : l.map f = l := (List.cons.injEq _ _ _ _ ▸ h : _ ∧ _).2
    rcases List.mem_cons.1 hx with h3 | h3
    · rw [h3]; exact h1
    · exact map_eq_self_forall h2 x h3

theorem centry_eta (ce : ColumnEntry) : ColumnEntry.mk ce.expr ce.asName = ce := by
  cases ce with
  | mk e a => rfl

theorem stdSelectAliasEntry_expr (ce : ColumnEntry) :
    (stdSelectAliasEntry ce).expr = ce.expr := by
  cases ce with
  | mk e a => simp [stdSelectAliasEntry]

theorem cleanCEL_mem : ∀ {es : List ColumnEntry} {ce : ColumnEntry},
    cleanColumnEntryList es = true → ce ∈ es → cleanOptExpr ce.expr = true
  | .mk e a :: rest, ce, h, hmem => by
    rw [cleanColumnEntryList] at h
    simp only [Bool.and_eq_true] at h
    rcases List.mem_cons.1 hmem with h1 | h1
    · subst h1
      simpa using h.1
    · exact cleanCEL_mem h.2 h1

theorem cleanEL_mem : ∀ {es : List Expr} {e : Expr},
    cleanExprList es = true → e ∈ es → cleanExpr e = true
  | e1 :: rest, e, h, hmem => by
    rw [cleanExprList] at h
    simp only [Bool.and_eq_true] at h
    rcases List.mem_cons.1 hmem with h1 | h1
    · subst h1
      exact h.1
    · exact cleanEL_mem h.2 h1

theorem sortJoinOn_table (t : TableRef) : (sortJoinOn t).table = t.table := by
  cases t with
  | mk table asN join onc => rfl

theorem sortJoinOn_asName (t : TableRef) : (sortJoinOn t).asName = t.asName := by
  cases t with
  | mk table asN join onc => rfl

theorem sortJoinOn_eq (t : TableRef) :
    sortJoinOn t = TableRef.mk t.table t.asName t.join (sortWhereConditions t.onc) := by
  cases t with
  | mk table asN join onc =>
    cases onc <;> rfl

theorem resolveOptExpr_canon_fixed (a : AliasMap) (i : Option String)
    {w : Option Expr} (h : resolveOptExpr a i w = w) :
    resolveOptExpr a i (sortWhereConditions w) = sortWhereConditions w := by
  cases w with
  | none => rfl
  | some e =>
    rw [resolveOptExpr] at h
    have he : resolveExpressionAliasesInPlace a i e = e := by
      simpa using h
    rw [sortWhereConditions, resolveOptExpr,
      resolve_canon_fixed a i e he]

theorem resolveTableEntry_fields {a : AliasMap} {i : Option String} {t : TableRef}
    (h : resolveTableEntry a i t = t) :
    (if truthyS t.table then some (normalizeTableName t.table) else t.table) = t.table
    ∧ (if truthyS t.asName then none else t.asName) = t.asName
    ∧ resolveOptExpr a i t.onc = t.onc := by
  cases t with
  | mk table asN join onc =>
    rw [resolveTableEntry] at h
    simpa [TableRef.mk.injEq] using h

theorem resolveTableEntry_sortJoinOn_fixed {a : AliasMap} {i : Option String}
    {t : TableRef} (h : resolveTableEntry a i t = t) :
    resolveTableEntry a i (sortJoinOn t) = sortJoinOn t := by
  obtain ⟨h1, h2, h3⟩ := resolveTableEntry_fields h
  rw [sortJoinOn_eq, resolveTableEntry]
  rw [h1, h2, resolveOptExpr_canon_fixed a i h3]

theorem resolveColumnEntryList_fixed_of (a : AliasMap) (i : Option String)
    {L : List ColumnEntry} (h : ∀ ce ∈ L, resolveOptExpr a i ce.expr = ce.expr) :
    resolveColumnEntryList a i L = L := by
  rw [resolveColumnEntryList_map]
  rw [map_eq_self_of]
  intro ce hce
  rw [h ce hce, centry_eta]

theorem resolveExprList_fixed_of (a : AliasMap) (i : Option String)
    {L : List Expr} (h : ∀ e ∈ L, resolveExpressionAliasesInPlace a i e = e) :
    resolveExprList a i L = L := by
  rw [resolveExprList_map]
  exact map_eq_self_of h

theorem resolveTableRefList_fixed_of (a : AliasMap) (i : Option String)
    {L : List TableRef} (h : ∀ t ∈ L, resolveTableEntry a i t = t) :
    resolveTableRefList a i L = L := by
  rw [resolveTableRefList_map]
  exact map_eq_self_of h

theorem transformAst_resolve_false (opts : NormOptions)
    (h : opts.resolveAliases = false)
    (cols : Option Columns) (frm : Option (List TableRef)) (wh : Option Expr)
    (gb : Option (List Expr)) (hv : Option Expr) (ob : Option (List OrderEntry)) :
    transformAst opts (.mk cols frm wh gb hv ob)
      = Query.mk
          (if opts.sortColumns then sortSelectColumns (standardizeSelectAliases cols)
           else standardizeSelectAliases cols)
          (if opts.sortJoins then sortJoinClauses frm else frm)
          (if opts.sortWhere then sortWhereConditions wh else wh)
          (if opts.sortGroupBy then sortGroupBy gb else gb)
          hv ob := by
  rw [transformAst, if_neg (by simp [h])]

theorem transformAst_resolve_true (opts : NormOptions)
    (h : opts.resolveAliases = true)
    (cols : Option Columns) (frm : Option (List TableRef)) (wh : Option Expr)
    (gb : Option (List Expr)) (hv : Option Expr) (ob : Option (List OrderEntry)) :
    transformAst opts (.mk cols frm wh gb hv ob)
      = Query.mk
          (if opts.sortColumns then
             sortSelectColumns (standardizeSelectAliases
               (resolveColumnsField (bamOf frm) (implicitFromList frm) cols))
           else standardizeSelectAliases
               (resolveColumnsField (bamOf frm) (implicitFromList frm) cols))
          (if opts.sortJoins then
             sortJoinClauses (resolveFromField (bamOf frm) (implicitFromList frm) frm)
           else resolveFromField (bamOf frm) (implicitFromList frm) frm)
          (if opts.sortWhere then
             sortWhereConditions (resolveOptExpr (bamOf frm) (implicitFromList frm) wh)
           else resolveOptExpr (bamOf frm) (implicitFromList frm) wh)
          (if opts.sortGroupBy then
             sortGroupBy (resolveGroupbyField (bamOf frm) (implicitFromList frm) gb)
           else resolveGroupbyField (bamOf frm) (implicitFromList frm) gb)
          (resolveOptExpr (bamOf frm) (implicitFromList frm) hv)
          (resolveOrderbyField (bamOf frm) (implicitFromList frm) ob) := by
  rw [transformAst, if_pos h, buildAliasMap_eq, Query.from_mk, resolveAstAliases]

/-- `ResolveFixHyp` also holds against the maps of the join-sorted first-pass
FROM clause: sorting permutes the entries and canonicalizes ON conditions but
touches neither table names nor aliases. -/
theorem resolveFixHyp_sortJoin (a : AliasMap) (i : Option String)
    (frm : Option (List TableRef)) (hclean : cleanFrom frm = true) :
    ResolveFixHyp (bamOf frm) (implicitFromList frm)
      (bamOf (sortJoinClauses (resolveFromField a i frm)))
      (implicitFromList (sortJoinClauses (resolveFromField a i frm))) := by
  refine resolveFixHyp_of frm _ hclean ?_ ?_
  · intro h
    rw [h, resolveFromField, sortJoinClauses_none]
  · intro l hl
    rw [hl, resolveFromField, sortJoinClauses_some]
    by_cases hlen : (resolveTableRefList a i l).length ≤ 1
    · rw [if_pos hlen]
      refine ⟨resolveTableRefList a i l, rfl, ?_, ?_⟩
      · rw [resolveTableRefList_map]
        exact List.length_map l _
      · intro t2 ht2
        rw [resolveTableRefList_map] at ht2
        obtain ⟨t, htl, rfl⟩ := List.mem_map.1 ht2
        exact ⟨resolveTableEntry_asName_falsy a i t, t, htl,
          resolveTableEntry_table a i t⟩
    · rw [if_neg hlen]
      cases hrl : resolveTableRefList a i l with
      | nil =>
        rw [hrl] at hlen
        simp at hlen
      | cons t1 rest =>
        simp only [hrl]
        refine ⟨t1 :: (rest.insertionSort joinKeyLe).map sortJoinOn, rfl, ?_, ?_⟩
        · have hll : l.length = rest.length + 1 := by
            have hc := congrArg List.length hrl
            rw [resolveTableRefList_map, List.length_map] at hc
            simpa using hc
          simp [hll]
        · intro t2 ht2
          have hmem : ∀ t3 ∈ resolveTableRefList a i l,
              truthyS t3.asName = false
              ∧ ∃ t ∈ l, t3.table
                  = (if truthyS t.table then some (normalizeTableName t.table)
                     else t.table) := by
            intro t3 ht3
            rw [resolveTableRefList_map] at ht3
            obtain ⟨t, htl, rfl⟩ := List.mem_map.1 ht3
            exact ⟨resolveTableEntry_asName_falsy a i t, t, htl,
              resolveTableEntry_table a i t⟩
          rcases List.mem_cons.1 ht2 with h2 | h2
          · rw [h2]
            exact hmem t1 (by rw [hrl]; exact List.mem_cons_self _ _)
          · obtain ⟨z, hz, rfl⟩ := List.mem_map.1 h2
            have hz2 : z ∈ resolveTableRefList a i l := by
              rw [hrl]
              exact List.mem_cons_of_mem _ ((List.mem_insertionSort joinKeyLe).1 hz)
            obtain ⟨hza, t, htl, hzt⟩ := hmem z hz2
            refine ⟨?_, t, htl, ?_⟩
            · rw [sortJoinOn_asName]
              exact hza
            · rw [sortJoinOn_table]
              exact hzt

theorem resolveCEL_fixed_pointwise (a1 : AliasMap) (i1 : Option String)
    (a2 : AliasMap) (i2 : Option String) (H : ResolveFixHyp a1 i1 a2 i2)
    {es : List ColumnEntry} (hc : cleanColumnEntryList es = true) :
    ∀ ce ∈ resolveColumnEntryList a1 i1 es,
      resolveOptExpr a2 i2 ce.expr = ce.expr := by
  intro ce hce
  rw [resolveColumnEntryList_map] at hce
  obtain ⟨y, hy, rfl⟩ := List.mem_map.1 hce
  rw [ColumnEntry.centryExpr_mk]
  exact optExprFixed a1 i1 a2 i2 H y.expr (cleanCEL_mem hc hy)

theorem resolveEL_fixed_pointwise (a1 : AliasMap) (i1 : Option String)
    (a2 : AliasMap) (i2 : Option String) (H : ResolveFixHyp a1 i1 a2 i2)
    {es : List Expr} (hc : cleanExprList es = true) :
    ∀ e ∈ resolveExprList a1 i1 es,
      resolveExpressionAliasesInPlace a2 i2 e = e := by
  intro e he
  rw [resolveExprList_map] at he
  obtain ⟨y, hy, rfl⟩ := List.mem_map.1 he
  exact exprFixed a1 i1 a2 i2 H y (cleanEL_mem hc hy)

theorem columnsStep_fixed (a1 : AliasMap) (i1 : Option String)
    (a2 : AliasMap) (i2 : Option String) (H : ResolveFixHyp a1 i1 a2 i2)
    (b : Bool) (cols : Option Columns) (hc : cleanColumns cols = true) :
    resolveColumnsField a2 i2
        (if b then sortSelectColumns (standardizeSelectAliases
            (resolveColumnsField a1 i1 cols))
         else standardizeSelectAliases (resolveColumnsField a1 i1 cols))
      = (if b then sortSelectColumns (standardizeSelectAliases
            (resolveColumnsField a1 i1 cols))
         else standardizeSelectAliases (resolveColumnsField a1 i1 cols)) := by
  have hpw : ∀ ce ∈ resolveColumnEntryList a1 i1
      (match cols with | some (.list es) => es | _ => []),
      resolveOptExpr a2 i2 ce.expr = ce.expr := by
    cases cols with
    | none => simp [resolveColumnEntryList_map]
    | some c =>
      cases c with
      | all => simp [resolveColumnEntryList_map]
      | list es =>
        exact resolveCEL_fixed_pointwise a1 i1 a2 i2 H
          (by rw [cleanColumns] at hc; exact hc)
  cases cols with
  | none =>
    cases b <;> simp [resolveColumnsField, standardizeSelectAliases, sortSelectColumns]
  | some c =>
    cases c with
    | all =>
      cases b <;>
        simp [resolveColumnsField, standardizeSelectAliases, sortSelectColumns]
    | list es =>
      have hstd : ∀ ce ∈ (resolveColumnEntryList a1 i1 es).map stdSelectAliasEntry,
          resolveOptExpr a2 i2 ce.expr = ce.expr := by
        intro ce hce
        obtain ⟨y, hy, rfl⟩ := List.mem_map.1 hce
        rw [stdSelectAliasEntry_expr]
        exact hpw y hy
      cases b with
      | false =>
        simp only [Bool.false_eq_true, if_false]
        rw [resolveColumnsField, standardizeSelectAliases, resolveColumnsField]
        rw [resolveColumnEntryList_fixed_of a2 i2 hstd]
      | true =>
        simp only [eq_self_iff_true, if_true]
        rw [resolveColumnsField, standardizeSelectAliases, sortSelectColumns,
          resolveColumnsField]
        rw [resolveColumnEntryList_fixed_of a2 i2
          (fun ce hce => hstd ce (mem_sortSelect_parts hce))]

theorem fromStep_fixed (a1 : AliasMap) (i1 : Option String)
    (a2 : AliasMap) (i2 : Option String) (H : ResolveFixHyp a1 i1 a2 i2)
    (b : Bool) (frm : Option (List TableRef)) (hc : cleanFrom frm = true) :
    resolveFromField a2 i2
        (if b then sortJoinClauses (resolveFromField a1 i1 frm)
         else resolveFromField a1 i1 frm)
      = (if b then sortJoinClauses (resolveFromField a1 i1 frm)
         else resolveFromField a1 i1 frm) := by
  cases b with
  | false => exact fromFieldFixed a1 i1 a2 i2 H frm hc
  | true =>
    simp only [eq_self_iff_true, if_true]
    cases frm with
    | none => simp [resolveFromField, sortJoinClauses_none]
    | some l =>
      have hpw : ∀ t ∈ resolveTableRefList a1 i1 l,
          resolveTableEntry a2 i2 t = t := by
        have hfix := tableRefListFixed a1 i1 a2 i2 H l
          (by rw [cleanFrom] at hc; exact hc)
        rw [resolveTableRefList_map a2 i2] at hfix
        exact map_eq_self_forall hfix
      rw [resolveFromField]
      rw [sortJoinClauses_some]
      by_cases hlen : (resolveTableRefList a1 i1 l).length ≤ 1
      · rw [if_pos hlen]
        rw [resolveFromField]
        rw [resolveTableRefList_fixed_of a2 i2 hpw]
      · rw [if_neg hlen]
        cases hrl : resolveTableRefList a1 i1 l with
        | nil =>
          rw [hrl] at hlen
          simp at hlen
        | cons t1 rest =>
          simp only [hrl]
          rw [resolveFromField]
          rw [resolveTableRefList_fixed_of a2 i2 ?_]
          intro t ht
          rcases List.mem_cons.1 ht with h2 | h2
          · rw [h2]
            exact hpw t1 (by rw [hrl]; exact List.mem_cons_self _ _)
          · obtain ⟨z, hz, rfl⟩ := List.mem_map.1 h2
            refine resolveTableEntry_sortJoinOn_fixed (hpw z ?_)
            rw [hrl]
            exact List.mem_cons_of_mem _ ((List.mem_insertionSort joinKeyLe).1 hz)

theorem whereStep_fixed (a1 : AliasMap) (i1 : Option String)
    (a2 : AliasMap) (i2 : Option String) (H : ResolveFixHyp a1 i1 a2 i2)
    (b : Bool) (wh : Option Expr) (hc : cleanOptExpr wh = true) :
    resolveOptExpr a2 i2
        (if b then sortWhereConditions (resolveOptExpr a1 i1 wh)
         else resolveOptExpr a1 i1 wh)
      = (if b then sortWhereConditions (resolveOptExpr a1 i1 wh)
         else resolveOptExpr a1 i1 wh) := by
  cases b with
  | false => exact optExprFixed a1 i1 a2 i2 H wh hc
  | true => exact resolveOptExpr_canon_fixed a2 i2 (optExprFixed a1 i1 a2 i2 H wh hc)

theorem groupbyStep_fixed (a1 : AliasMap) (i1 : Option String)
    (a2 : AliasMap) (i2 : Option String) (H : ResolveFixHyp a1 i1 a2 i2)
    (b : Bool) (gb : Option (List Expr)) (hc : cleanGroupby gb = true) :
    resolveGroupbyField a2 i2
        (if b then sortGroupBy (resolveGroupbyField a1 i1 gb)
         else resolveGroupbyField a1 i1 gb)
      = (if b then sortGroupBy (resolveGroupbyField a1 i1 gb)
         else resolveGroupbyField a1 i1 gb) := by
  cases b with
  | false => exact groupbyFieldFixed a1 i1 a2 i2 H gb hc
  | true =>
    simp only [eq_self_iff_true, if_true]
    cases gb with
    | none => simp [resolveGroupbyField, sortGroupBy]
    | some es =>
      have hpw : ∀ e ∈ resolveExprList a1 i1 es,
          resolveExpressionAliasesInPlace a2 i2 e = e :=
        resolveEL_fixed_pointwise a1 i1 a2 i2 H
          (by rw [cleanGroupby] at hc; exact hc)
      rw [resolveGroupbyField, sortGroupBy, resolveGroupbyField]
      rw [resolveExprList_fixed_of a2 i2
        (fun e he => hpw e ((List.mem_insertionSort exprKeyLe).1 he))]

theorem if_idem_step {α : Type} (b : Bool) (f : α → α) (x : α)
    (hf : ∀ y, f (f y) = f y) :
    (if b then f (if b then f x else x) else (if b then f x else x))
      = (if b then f x else x) := by
  cases b <;> simp [hf]

theorem if_std_sort_idem (b : Bool) (c : Option Columns) :
    (if b then
       sortSelectColumns (standardizeSelectAliases
         (if b then sortSelectColumns (standardizeSelectAliases c)
          else standardizeSelectAliases c))
     else standardizeSelectAliases
         (if b then sortSelectColumns (standardizeSelectAliases c)
          else standardizeSelectAliases c))
      = (if b then sortSelectColumns (standardizeSelectAliases c)
         else standardizeSelectAliases c) := by
  cases b <;>
    simp [standardizeSelectAliases_idem, standardizeSelectAliases_sortSelect,
      sortSelectColumns_idem]

/-- The AST-transformation pipeline of `normalizeQuery` is idempotent; when
alias resolution is enabled the query must be clean (no doubly quoted table
names anywhere in the tree). -/
theorem transformAst_idem (opts : NormOptions) (q : Query)
    (hclean : opts.resolveAliases = true → cleanQuery q = true) :
    transformAst opts (transformAst opts q) = transformAst opts q := by
  cases q with
  | mk cols frm wh gb hv ob =>
    by_cases hre : opts.resolveAliases = true
    · obtain ⟨h1, h2, h3, h4, h5, h6⟩ : cleanColumns cols = true
          ∧ cleanFrom frm = true ∧ cleanOptExpr wh = true ∧ cleanGroupby gb = true
          ∧ cleanOptExpr hv = true ∧ cleanOrderby ob = true := by
        have hq := hclean hre
        rw [cleanQuery] at hq
        simpa [Bool.and_eq_true, and_assoc] using hq
      rw [transformAst_resolve_true opts hre cols frm wh gb hv ob]
      rw [transformAst_resolve_true opts hre]
      have H2 : ResolveFixHyp (bamOf frm) (implicitFromList frm)
          (bamOf (if opts.sortJoins then
              sortJoinClauses (resolveFromField (bamOf frm) (implicitFromList frm) frm)
            else resolveFromField (bamOf frm) (implicitFromList frm) frm))
          (implicitFromList (if opts.sortJoins then
              sortJoinClauses (resolveFromField (bamOf frm) (implicitFromList frm) frm)
            else resolveFromField (bamOf frm) (implicitFromList frm) frm)) := by
        by_cases hsj : opts.sortJoins = true
        · rw [if_pos hsj]
          exact resolveFixHyp_sortJoin (bamOf frm) (implicitFromList frm) frm h2
        · rw [if_neg hsj]
          exact resolveFromField_hyp (bamOf frm) (implicitFromList frm) frm h2
      rw [columnsStep_fixed _ _ _ _ H2 opts.sortColumns cols h1]
      rw [fromStep_fixed _ _ _ _ H2 opts.sortJoins frm h2]
      rw [whereStep_fixed _ _ _ _ H2 opts.sortWhere wh h3]
      rw [groupbyStep_fixed _ _ _ _ H2 opts.sortGroupBy gb h4]
      rw [optExprFixed _ _ _ _ H2 hv h5]
      rw [orderbyFieldFixed _ _ _ _ H2 ob h6]
      rw [if_std_sort_idem opts.sortColumns]
      rw [if_idem_step opts.sortJoins sortJoinClauses _ sortJoinClauses_idem]
      rw [if_idem_step opts.sortWhere sortWhereConditions _ sortWhereConditions_idem]
      rw [if_idem_step opts.sortGroupBy sortGroupBy _ sortGroupBy_idem]
    · have hre0 : opts.resolveAliases = false := by simpa using hre
      rw [transformAst_resolve_false opts hre0 cols frm wh gb hv ob]
      rw [transformAst_resolve_false opts hre0]
      rw [if_std_sort_idem opts.sortColumns]
      rw [if_idem_step opts.sortJoins sortJoinClauses _ sortJoinClauses_idem]
      rw [if_idem_step opts.sortWhere sortWhereConditions _ sortWhereConditions_idem]
      rw [if_idem_step opts.sortGroupBy sortGroupBy _ sortGroupBy_idem]

/-- **C4.** Normalization is idempotent as a text fixed point: if the input
parses cleanly (producing `q0`), the canonical text is
`render (transformAst opts q0)`; re-running `normalizeQuery` on that canonical
text under the same options succeeds (no error) and yields exactly the same
canonical text.  The external parser is abstract, so the canonical text is
assumed to parse back to the transformed tree (the round-trip hypothesis
`hrt`), and when alias resolution is enabled the parsed tree must be clean:
`normalizeTableName` strips only one quote layer, so its output is a fixed
point only for table names that are not quoted twice. -/
theorem normalizeQuery_idempotent (parse : String → ParseResult)
    (render : Query → String) (opts : NormOptions) (sql : String) (q0 : Query)
    (hp : parse sql = { ast := some q0, error := none })
    (hclean : opts.resolveAliases = true → cleanQuery q0 = true)
    (hrt : parse (render (transformAst opts q0))
      = { ast := some (transformAst opts q0), error := none }) :
    (normalizeQuery parse render opts sql).normalized
        = some (render (transformAst opts q0))
    ∧ (normalizeQuery parse render opts (render (transformAst opts q0))).error = none
    ∧ (normalizeQuery parse render opts (render (transformAst opts q0))).normalized
        = (normalizeQuery parse render opts sql).normalized := by
  have h1 : (normalizeQuery parse render opts sql)
      = { normalized := some (render (transformAst opts q0)),
          ast := some (transformAst opts q0), error := none } := by
    simp [normalizeQuery, hp, truthyS]
  have h2 : (normalizeQuery parse render opts (render (transformAst opts q0)))
      = { normalized := some (render (transformAst opts (transformAst opts q0))),
          ast := some (transformAst opts (transformAst opts q0)), error := none } := by
    simp [normalizeQuery, hrt, truthyS]
  rw [transformAst_idem opts q0 hclean] at h2
  exact ⟨by rw [h1], by rw [h2], by rw [h1, h2]⟩

/-- A concrete already-canonical one-table query for the C4 witness. -/
def c4Query : Query :=
  Query.mk
    (some (.list [ColumnEntry.mk (some (.column_ref (some "t") "a")) (some "a")]))
    (some [TableRef.mk (some "t") none none none])
    none none none none

/-- A parser stub whose every answer is the C4 witness tree. -/
def c4Parse : String → ParseResult :=
  fun s => { ast := some c4Query, error := none }

/-- A renderer stub for the C4 witness. -/
def c4Render : Query → String := fun q => "SELECT t.a AS a FROM t"

theorem c4_transform_fixed : transformAst {} c4Query = c4Query := by
  rw [c4Query, transformAst_resolve_true {} rfl]
  simp +decide [resolveColumnsField, resolveFromField, resolveOrderbyField,
    resolveGroupbyField, resolveColumnEntryList, resolveOptExpr,
    resolveExpressionAliasesInPlace, resolveTableRefList, implicitFromList,
    bamOf, bamStep, amSet, amGet, normalizeTableName, truthyS,
    standardizeSelectAliases, stdSelectAliasEntry, sortSelectColumns,
    isStarEntry, sortJoinClauses_some, sortGroupBy, sortWhereConditions,
    List.insertionSort, List.orderedInsert]

theorem c4_clean : cleanQuery c4Query = true := by
  rw [c4Query, cleanQuery]
  simp +decide [cleanColumns, cleanColumnEntryList, cleanOptExpr, cleanExpr,
    cleanFrom, cleanTableRefList, cleanName, cleanGroupby, cleanOrderby,
    normalizeTableName, truthyS]

/-- Witness for C4: a concrete parse/render pair with a clean one-table query
satisfying the round trip; both normalizations agree on the canonical text. -/
theorem normalizeQuery_idempotent_witness :
    (normalizeQuery c4Parse c4Render {} "SELECT a FROM t").normalized
        = some (c4Render (transformAst {} c4Query))
    ∧ (normalizeQuery c4Parse c4Render {}
        (c4Render (transformAst {} c4Query))).error = none
    ∧ (normalizeQuery c4Parse c4Render {}
        (c4Render (transformAst {} c4Query))).normalized
        = (normalizeQuery c4Parse c4Render {} "SELECT a FROM t").normalized :=
  normalizeQuery_idempotent c4Parse c4Render {} "SELECT a FROM t" c4Query
    rfl
    (fun _ => c4_clean)
    (by rw [c4_transform_fixed]; rfl)

end SqlDiff
